import Mathlib

/-!
# Verification of the DayOne journal backend (`jrnl/DayOneJournal.py`)

Shallow embedding of the DayOne journal backend: the on-disk record codec
(`open`/`write`), the editable-text codec (`editable_str`), and the
reconciliation algorithm (`parse_editable_str`).  Python strings are
modelled as Lean `String`s and all string manipulation is done on the
underlying character lists, so every definition is executable.  Machine
behaviour that raises an exception in Python (`AttributeError`,
`KeyError`, missing files) is modelled with `Option`/`Except`.

The `Entry` object, the `jrnl.time` parser, `pytz`/`tzlocal` and the
host-environment probes are external collaborators of the file under
analysis; they are modelled from the specification's description of the
consumed interface (each such definition carries a `Modelled from the
spec:` doc comment).
-/

namespace DayOne

/-! ## Character-level string utilities

Python's `str` operations used by the source (`rstrip`, `strip`, `lower`,
`upper`, `splitlines`, whitespace word-splitting) are defined here on
`List Char` and wrapped for `String`. -/

/-- Whitespace characters recognised by Python's default `strip`/`split`
(space, tab, newline, carriage return). -/
def isWS (c : Char) : Bool := c.toNat = 32 || c.toNat = 9 || c.toNat = 10 || c.toNat = 13

/-- ASCII lower-casing of one character (Python `str.lower` restricted to
the ASCII range, which is all the source ever lowers). -/
def lowerChar (c : Char) : Char :=
  if 65 ≤ c.toNat && c.toNat ≤ 90 then Char.ofNat (c.toNat + 32) else c

/-- ASCII upper-casing of one character (Python `str.upper`). -/
def upperChar (c : Char) : Char :=
  if 97 ≤ c.toNat && c.toNat ≤ 122 then Char.ofNat (c.toNat - 32) else c

/-- Lower-case hexadecimal digit, the character class `[a-f0-9]` of the
header regex in `parse_editable_str`. -/
def isLowerHex (c : Char) : Bool :=
  (97 ≤ c.toNat && c.toNat ≤ 102) || (48 ≤ c.toNat && c.toNat ≤ 57)

/-- Decimal digit. -/
def isDigitCh (c : Char) : Bool := 48 ≤ c.toNat && c.toNat ≤ 57

/-- Drop a trailing run of characters satisfying `p` (the end-side half of
Python's `strip` family). -/
def dropEndWhile (p : Char → Bool) (l : List Char) : List Char :=
  (l.reverse.dropWhile p).reverse

/-- Python `str.rstrip()` on a character list. -/
def rstripCh (l : List Char) : List Char := dropEndWhile isWS l

/-- Python `str.strip()` on a character list. -/
def stripCh (l : List Char) : List Char := (rstripCh l).dropWhile isWS

/-- Python `str.strip(chars)` on a character list: remove the characters
of `cs` from both ends. -/
def stripSetCh (cs : List Char) (l : List Char) : List Char :=
  (dropEndWhile (· ∈ cs) l).dropWhile (· ∈ cs)

/-- Python `str.splitlines()` (for `\n`-separated text, which is all this
program produces): `""` gives no lines, a trailing newline does not open
an extra empty line. -/
def linesCh : List Char → List (List Char)
  | [] => []
  | c :: cs =>
    if c.toNat = 10 then [] :: linesCh cs
    else
      match linesCh cs with
      | [] => [[c]]
      | l :: ls => (c :: l) :: ls

/-- Whitespace-separated words of a character list (Python `str.split()`
with no argument), with an explicit accumulator for the word being read. -/
def wordsAux : List Char → List Char → List (List Char)
  | [], acc => if acc.isEmpty then [] else [acc.reverse]
  | c :: cs, acc =>
    if isWS c then
      if acc.isEmpty then wordsAux cs [] else acc.reverse :: wordsAux cs []
    else wordsAux cs (c :: acc)

/-- Whitespace-separated words of a character list. -/
def wordsCh (l : List Char) : List (List Char) := wordsAux l []

/-- String wrappers. -/
def rstripS (s : String) : String := ⟨rstripCh s.data⟩

def stripS (s : String) : String := ⟨stripCh s.data⟩

def lowerS (s : String) : String := ⟨s.data.map lowerChar⟩

def upperS (s : String) : String := ⟨s.data.map upperChar⟩

def splitlines (s : String) : List String := (linesCh s.data).map String.mk

/-- `"\n".join(l)` from the source's `editable_str`. -/
def joinNL : List String → String
  | [] => ""
  | [s] => s
  | s :: rest => s ++ "\n" ++ joinNL rest

/-! ## Decimal instants

`Modelled from the spec:` the time-parsing collaborator (`jrnl.time.parse`)
and the timestamp rendering inside the `Entry` collaborator's string form
are external to the analysed file; per the spec the parser maps "a
bracketed timestamp string to an absolute instant, using the same format
the renderer produces".  Instants are modelled as integers and the
renderer's timestamp format as their decimal numeral. -/

/-- The decimal digit character for `d % 10`. -/
def digitChar : Nat → Char
  | 0 => '0' | 1 => '1' | 2 => '2' | 3 => '3' | 4 => '4'
  | 5 => '5' | 6 => '6' | 7 => '7' | 8 => '8' | _ => '9'

/-- Value of a decimal digit character. -/
def digitVal (c : Char) : Nat := c.toNat - 48

/-- Big-endian decimal digits of `n`, with `fuel ≥ n` for structural
recursion. -/
def decAux : Nat → Nat → List Char
  | 0, _ => []
  | fuel + 1, n => if n = 0 then [] else decAux fuel (n / 10) ++ [digitChar (n % 10)]

/-- Decimal numeral of a natural number. -/
def decStr (n : Nat) : String := if n = 0 then "0" else ⟨decAux n n⟩

/-- `Modelled from the spec:` rendering of an instant by the `Entry`
collaborator's canonical text form (the contents of the bracketed
timestamp). -/
def dateStr (d : Int) : String := decStr d.toNat

/-- `Modelled from the spec:` `jrnl.time.parse` applied to the bracketed
timestamp contents; returns no instant on input it does not understand. -/
def timeParse (s : String) : Option Int :=
  if s.data ≠ [] ∧ s.data.all isDigitCh then
    some (Int.ofNat (s.data.foldl (fun a c => a * 10 + digitVal c) 0))
  else none

/-! ## Data model -/

/-- `Modelled from the spec:` the `Entry` collaborator's record.  Python's
dynamically present attributes (`uuid`, the five `creator_*` provenance
fields, `location`, `weather`, and a possibly unset `date`) are modelled
as explicit `Option` fields, as §9 of the spec directs; `hasattr` is
`Option.isSome`.  `location`/`weather` are opaque payloads. -/
structure Entry where
  uuid : Option String
  date : Option Int
  title : String
  body : String
  starred : Bool
  tags : List String
  creator_device_agent : Option String
  creator_generation_date : Option Int
  creator_host_name : Option String
  creator_os_agent : Option String
  creator_software_agent : Option String
  location : Option String
  weather : Option String
  modified : Bool
deriving Repr, DecidableEq

/-- The journal configuration fields the DayOne class reads
(`config["journal"]` and `config["tagsymbols"]`). -/
structure Config where
  journal : String
  tagsymbols : String
deriving Repr, DecidableEq

/-- A resolved timezone: its name (`pytz`'s `zone` attribute) and its
non-DST UTC offset (`utcoffset(date, is_dst=False)`).
`Modelled from the spec:` `pytz` timezone objects. -/
structure TZInfo where
  zone : String
  offset : Int
deriving Repr, DecidableEq

/-- `Modelled from the spec:` the ambient host environment consumed by
`open`/`write` — the `pytz` timezone database, `tzlocal.get_localzone()`,
`socket.gethostname()`, `platform.system()/release()`, the application
title/version, and the `uuid.uuid1().hex` generator (a stream indexed by
how many fresh identities have been drawn). -/
structure Env where
  tzdb : List (String × TZInfo)
  localZone : TZInfo
  hostname : String
  platformSystem : String
  platformRelease : String
  title : String
  version : String
  freshUuid : Nat → String

/-- The `Creator` sub-dictionary of a record, each key optional. -/
structure Creator where
  deviceAgent : Option String
  generationDate : Option Int
  hostName : Option String
  osAgent : Option String
  softwareAgent : Option String
deriving Repr, DecidableEq

/-- One parsed plist record: every DayOne key, present or not.
`Starred`/`Creation Date`/`Entry Text`/`UUID` are required by the decoder
(a missing one raises `KeyError`); the rest are optional. -/
structure PlistRecord where
  creationDate : Option Int
  entryText : Option String
  starred : Option Bool
  timeZone : Option String
  uuidKey : Option String
  tags : Option (List String)
  creator : Option Creator
  location : Option String
  weather : Option String
deriving Repr, DecidableEq

/-- A discovered `*.doentry` file: either unparseable as a plist
(`plistlib` raises, the record is skipped) or a parsed record. -/
inductive DFile
  | corrupt
  | record (r : PlistRecord)
deriving Repr, DecidableEq

/-- Whether a discovered file parsed as a plist record. -/
def DFile.isRecord : DFile → Bool
  | DFile.corrupt => false
  | DFile.record _ => true

/-- The DayOne journal's mutable state: `self.entries` and
`self._deleted_entries`. -/
structure DayOneStore where
  entries : List Entry
  deleted : List Entry
deriving Repr, DecidableEq

/-! ## The `Entry` collaborator's consumed interface -/

/-- First line of a text blob. -/
def firstLine (s : String) : String := ⟨s.data.takeWhile (fun c => c.toNat ≠ 10)⟩

/-- Everything after the first line of a text blob. -/
def restLines (s : String) : String :=
  ⟨(s.data.dropWhile (fun c => c.toNat ≠ 10)).drop 1⟩

/-- `Modelled from the spec:` the tag words of a text blob — the
whitespace-separated words beginning with the configured tag symbol
(the `Entry` collaborator's "tags property normalized with a configurable
symbol prefix"). -/
def extractTags (cfg : Config) (s : String) : List String :=
  ((wordsCh s.data).filter
    (fun w => decide (w.headD ' ' ∈ cfg.tagsymbols.data) && decide (w.length > 1))).map String.mk

/-- `Modelled from the spec:` `Entry._parse_text` — "a text-parsing method
that derives `title`/`body`/`tags` from the combined text".  The combined
text is `title ++ "\n" ++ body` (the same combination `write` persists as
`Entry Text`); the title is its first line, the body the remainder, and
the tags are the tag words of the whole text. -/
def parseTextUpdate (cfg : Config) (e : Entry) : Entry :=
  let combined := e.title ++ "\n" ++ e.body
  { e with
    title := firstLine combined
    body := restLines combined
    tags := extractTags cfg combined }

/-- `Modelled from the spec:` the `Entry` collaborator's equality
comparison ("full structural equality").  It compares every persistent
field: identity, timestamp, star flag, title and body text, the tag set,
and the extended metadata.  Title and body are compared up to
surrounding/trailing whitespace and the tags as a set, because the
editable rendering does not preserve those exactly (the spec's round-trip
property §8 requires equality to tolerate that jitter); the transient
`modified` flag is not part of the structure. -/
def entryEqB (a b : Entry) : Bool :=
  a.uuid == b.uuid &&
  a.date == b.date &&
  stripS a.title == stripS b.title &&
  rstripS a.body == rstripS b.body &&
  a.starred == b.starred &&
  decide (∀ t ∈ a.tags, t ∈ b.tags) && decide (∀ t ∈ b.tags, t ∈ a.tags) &&
  a.creator_device_agent == b.creator_device_agent &&
  a.creator_generation_date == b.creator_generation_date &&
  a.creator_host_name == b.creator_host_name &&
  a.creator_os_agent == b.creator_os_agent &&
  a.creator_software_agent == b.creator_software_agent &&
  a.location == b.location &&
  a.weather == b.weather

/-- `Entry.Entry(self)`: a freshly constructed entry with all defaults
(no date, empty text, not starred, no tags, no metadata). -/
def freshEntry : Entry where
  uuid := none
  date := none
  title := ""
  body := ""
  starred := false
  tags := []
  creator_device_agent := none
  creator_generation_date := none
  creator_host_name := none
  creator_os_agent := none
  creator_software_agent := none
  location := none
  weather := none
  modified := false

/-! ## `editable_str` : rendering the journal as one editable document -/

/-- Python's f-string rendering of a possibly absent attribute (only the
identity header ever goes through this; `None` prints as `"None"`). -/
def uuidStr : Option String → String
  | some u => u
  | none => "None"

/-- `Modelled from the spec:` `str(entry)`, the `Entry` collaborator's
canonical text rendering: "a single line containing a bracketed
timestamp, optional star suffix, and title, followed by the body".
Rendering an entry with no timestamp fails (`strftime` on `None`). -/
def entryStr (e : Entry) : Option String :=
  e.date.map fun d =>
    "[" ++ dateStr d ++ "] " ++ e.title ++ (if e.starred then " *" else "") ++ "\n" ++ e.body

/-- `DayOne.editable_str`:
`"\n".join([f"# {e.uuid}\n{str(e)}" for e in self.entries])`. -/
def editable_str (S : DayOneStore) : Option String :=
  (S.entries.mapM (fun e => (entryStr e).map (fun s => "# " ++ uuidStr e.uuid ++ "\n" ++ s))).map
    joinNL

/-! ## `parse_editable_str` : line scan -/

/-- The header regex `re.match("# *([a-f0-9]+) *$", line.lower())`: a `#`,
any spaces, a nonempty lower-hex run (on the lowered line), any spaces,
end of line.  Returns the captured identity. -/
def headerMatch (line : String) : Option String :=
  match line.data.map lowerChar with
  | [] => none
  | c :: rest =>
    if c.toNat = 35 then
      let r := rest.dropWhile (fun c => c.toNat = 32)
      let hex := r.takeWhile isLowerHex
      if hex ≠ [] ∧ (r.drop hex.length).all (fun c => c.toNat = 32) then
        some ⟨hex⟩
      else none
    else none

/-- The title-line regex `re.compile("^\\[[^\\]]+\\] ")` applied with
`findall` and used only through its first (anchored) match: an opening
bracket, a nonempty run without `]`, then `"] "`.  Returns the whole
matched blob. -/
def dateBlobMatch (line : String) : Option String :=
  match line.data with
  | [] => none
  | c :: rest =>
    if c.toNat = 91 then
      let inner := rest.takeWhile (fun c => c.toNat ≠ 93)
      match rest.drop inner.length with
      | c1 :: c2 :: _ =>
        if inner ≠ [] ∧ c1.toNat = 93 ∧ c2.toNat = 32 then
          some ⟨'[' :: inner ++ [']', ' ']⟩
        else none
      | _ => none
    else none

/-- State of the line scan: finished candidates and the entry being
built. -/
structure PState where
  acc : List Entry
  cur : Option Entry
deriving Repr, DecidableEq

/-- One line of the scan in `parse_editable_str`.  The line is first
`rstrip`ped.  A header line finalizes the current candidate and opens a
new one with the captured identity lower-cased and `modified = False`.  A
title line records star flag, title and parsed timestamp on the current
candidate — when no candidate exists yet this is Python assigning
attributes on `None`, an `AttributeError`, modelled as `none`.  Any other
line is appended to the current candidate's body (and dropped when no
candidate exists). -/
def stepLine (st : PState) (raw : String) : Option PState :=
  let line := rstripS raw
  match headerMatch line with
  | some hex =>
    some ⟨st.acc ++ st.cur.toList, some { freshEntry with modified := false, uuid := some (lowerS hex) }⟩
  | none =>
    match dateBlobMatch line with
    | some blob =>
      match st.cur with
      | none => none
      | some c =>
        let starred := if line.data.getLast? = some '*' then true else c.starred
        let line' : List Char := if line.data.getLast? = some '*' then line.data.dropLast else line.data
        some ⟨st.acc, some { c with
          starred := starred
          title := ⟨stripCh (line'.drop (blob.data.length - 1))⟩
          date := timeParse ⟨stripSetCh [' ', '[', ']'] blob.data⟩ }⟩
    | none =>
      match st.cur with
      | some c => some ⟨st.acc, some { c with body := c.body ++ line ++ "\n" }⟩
      | none => some st

/-- The line scan of `parse_editable_str`: fold `stepLine` over the
document's lines, then append the last open candidate. -/
def parseCandidates (edited : String) : Option (List Entry) :=
  ((splitlines edited).foldlM stepLine ⟨[], none⟩).map fun st => st.acc ++ st.cur.toList

/-! ## `parse_editable_str` : reconciliation -/

/-- Case-insensitive identity match:
`e.uuid.lower() == entry.uuid.lower()`. -/
def ciMatch (a b : Option String) : Bool := a.map lowerS == b.map lowerS

/-- The metadata/tag merge applied to a candidate and its match: the
candidate's tags are unioned with the match's
(`list(set(entry.tags + match.tags))`, deduplicated), and each of the
seven extended fields is copied from the match when present on it. -/
def mergeFromMatch (cand m : Entry) : Entry :=
  { cand with
    tags := (cand.tags ++ m.tags).dedup
    creator_device_agent := m.creator_device_agent.or cand.creator_device_agent
    creator_generation_date := m.creator_generation_date.or cand.creator_generation_date
    creator_host_name := m.creator_host_name.or cand.creator_host_name
    creator_os_agent := m.creator_os_agent.or cand.creator_os_agent
    creator_software_agent := m.creator_software_agent.or cand.creator_software_agent
    location := m.location.or cand.location
    weather := m.weather.or cand.weather }

/-- Python's `list.remove(x)`: drop the first element equal (by the
`Entry` collaborator's equality) to `x`. -/
def removeFirstEq (l : List Entry) (x : Entry) : List Entry :=
  match l with
  | [] => []
  | e :: rest => if entryEqB e x then rest else e :: removeFirstEq rest x

/-- Processing of one candidate against the working entry list (the loop
body of `parse_editable_str`): re-derive the candidate's content, look
for the first case-insensitive identity match; on a match, merge tags and
metadata and either keep the match (structural equality) or replace it by
the candidate marked modified; with no match, append the candidate marked
modified. -/
def reconcileStep (cfg : Config) (working : List Entry) (cand0 : Entry) : List Entry :=
  let cand := parseTextUpdate cfg cand0
  match working.find? (fun e => ciMatch e.uuid cand.uuid) with
  | some m =>
    let merged := mergeFromMatch cand m
    if entryEqB m merged then working
    else removeFirstEq working m ++ [{ merged with modified := true }]
  | none => working ++ [{ cand with modified := true }]

/-- The tail of `parse_editable_str`: process every candidate in document
order, then split the working list by whether the (case-sensitive)
identity occurs among the candidates' identities — survivors stay in
`entries`, the rest become `_deleted_entries`. -/
def reconcile (cfg : Config) (S : DayOneStore) (cands : List Entry) : DayOneStore :=
  let working := cands.foldl (reconcileStep cfg) S.entries
  let editedUuids := cands.map (·.uuid)
  { entries := working.filter (fun e => decide (e.uuid ∈ editedUuids))
    deleted := working.filter (fun e => decide (e.uuid ∉ editedUuids)) }

/-- `DayOne.parse_editable_str`: parse the edited document into
candidates (possibly raising, see `stepLine`), then reconcile them
against the store. -/
def parse_editable_str (cfg : Config) (S : DayOneStore) (edited : String) :
    Option DayOneStore :=
  (parseCandidates edited).map (reconcile cfg S)

/-! ## `open` : loading records from disk -/

/-- `pytz.timezone` / `tzlocal` resolution with the source's fallback:
`try: timezone = pytz.timezone(dict_entry["Time Zone"]) except (KeyError,
UnknownTimeZoneError): timezone = tzlocal.get_localzone()`. -/
def resolveTZ (env : Env) (name : Option String) : TZInfo :=
  match name with
  | none => env.localZone
  | some n =>
    match env.tzdb.lookup n with
    | some tz => tz
    | none => env.localZone

/-- Decoding of one parsed record into an `Entry` (the body of the record
loop in `open`).  A missing required key (`Creation Date`, `Entry Text`,
`Starred`, `UUID`) is an uncaught `KeyError`.  The creation date is
shifted to UTC by the resolved zone's non-DST offset unless the zone is
already `"UTC"`.  Tags are lower-cased and prefixed with the first
configured tag symbol.  Each extended attribute is set inside its own
`try`: a missing piece leaves the attribute absent, except the generation
date whose `except` branch sets it to the (converted) creation date. -/
def decodeRecord (env : Env) (cfg : Config) (r : PlistRecord) : Except Unit Entry := do
  let tz := resolveTZ env r.timeZone
  let d0 ← match r.creationDate with
    | some d => pure d
    | none => Except.error ()
  let date := if tz.zone ≠ "UTC" then d0 + tz.offset else d0
  let text ← match r.entryText with
    | some t => pure t
    | none => Except.error ()
  let st ← match r.starred with
    | some b => pure b
    | none => Except.error ()
  let u ← match r.uuidKey with
    | some u => pure u
    | none => Except.error ()
  pure { freshEntry with
    date := some date
    title := firstLine text
    body := restLines text
    starred := st
    uuid := some u
    tags := (r.tags.getD []).map
      (fun t => ⟨cfg.tagsymbols.data.headD 'A' :: (lowerS t).data⟩)
    creator_device_agent := r.creator.bind (·.deviceAgent)
    creator_generation_date := some (((r.creator.bind (·.generationDate))).getD date)
    creator_host_name := r.creator.bind (·.hostName)
    creator_os_agent := r.creator.bind (·.osAgent)
    creator_software_agent := r.creator.bind (·.softwareAgent)
    location := r.location
    weather := r.weather
    modified := false }

/-- `Journal.sort`: order entries by date (every loaded entry has one; an
absent date sorts as 0). -/
def sortEntries (l : List Entry) : List Entry :=
  l.mergeSort (fun a b => a.date.getD 0 ≤ b.date.getD 0)

/-- One iteration of the record loop in `open`: an unparseable plist is
skipped (`except PLIST_EXCEPTIONS: pass`), a parsed record is decoded and
appended (a missing required key aborts the whole load). -/
def openStep (env : Env) (cfg : Config) (acc : List Entry) : DFile → Except Unit (List Entry)
  | DFile.corrupt => pure acc
  | DFile.record r => (decodeRecord env cfg r).map (fun e => acc ++ [e])

/-- `DayOne.open` over the discovered `*.doentry` files, followed by
`self.sort()`. -/
def openJournal (env : Env) (cfg : Config) (files : List DFile) :
    Except Unit (List Entry) :=
  (files.foldlM (openStep env cfg) ([] : List Entry)).map sortEntries

/-! ## `write` : saving the store -/

/-- A filesystem effect of `write`: create/overwrite one record file, or
remove one file (`os.remove`, fatal when the file is missing). -/
inductive FileOp
  | writeFile (name : String) (rec : PlistRecord)
  | removeFile (name : String)
deriving Repr, DecidableEq

/-- The file name an operation touches. -/
def FileOp.name : FileOp → String
  | FileOp.writeFile n _ => n
  | FileOp.removeFile n => n

/-- Is the operation a record write? -/
def FileOp.isWrite : FileOp → Bool
  | FileOp.writeFile _ _ => true
  | FileOp.removeFile _ => false

/-- `datetime.utcfromtimestamp(time.mktime(entry.date.timetuple()))`:
re-interpret the stored instant as local wall-clock time and express it
in UTC, i.e. subtract the local zone's offset.
`Modelled from the spec:` "Recompute `Creation Date` as UTC-normalized
local time (mirrors decode's inverse)". -/
def writeUtc (env : Env) (d : Int) : Int := d - env.localZone.offset

/-- The attribute defaulting `write` performs on a modified entry before
encoding (`if not hasattr(entry, ...)`), with `idx` counting how many
fresh identities were drawn before this entry. -/
def fillDefaults (env : Env) (idx : Nat) (utc : Int) (e : Entry) : Entry :=
  { e with
    uuid := some (e.uuid.getD (env.freshUuid idx))
    creator_device_agent := some (e.creator_device_agent.getD "")
    creator_generation_date := some (e.creator_generation_date.getD utc)
    creator_host_name := some (e.creator_host_name.getD env.hostname)
    creator_os_agent := some (e.creator_os_agent.getD
      (env.platformSystem ++ "/" ++ env.platformRelease))
    creator_software_agent := some (e.creator_software_agent.getD
      (env.title ++ "/" ++ env.version)) }

/-- Strip the configured tag symbols from both ends of a tag and expand
underscores: `tag.strip(self.config["tagsymbols"]).replace("_", " ")`. -/
def encodeTag (cfg : Config) (t : String) : String :=
  ⟨(stripSetCh cfg.tagsymbols.data t.data).map (fun c => if c.toNat = 95 then ' ' else c)⟩

/-- The plist dictionary `write` builds for one (already defaulted)
entry. -/
def encodeRecord (env : Env) (cfg : Config) (utc : Int) (e : Entry) : PlistRecord where
  creationDate := some utc
  starred := some e.starred
  entryText := some (e.title ++ "\n" ++ e.body)
  timeZone := some env.localZone.zone
  uuidKey := e.uuid.map upperS
  tags := some (e.tags.map (encodeTag cfg))
  creator := some
    { deviceAgent := e.creator_device_agent
      generationDate := e.creator_generation_date
      hostName := e.creator_host_name
      osAgent := e.creator_os_agent
      softwareAgent := e.creator_software_agent }
  location := e.location
  weather := e.weather

/-- The file name `write` computes for a modified entry:
`Path(journal) / "entries" / (entry.uuid.upper() + ".doentry")`. -/
def writeName (cfg : Config) (u : String) : String :=
  cfg.journal ++ "/entries/" ++ upperS u ++ ".doentry"

/-- The write loop of `DayOne.write` over `self.entries`: each modified
entry is defaulted, encoded, and written; an entry with no timestamp
makes `timetuple()` raise (modelled as `none`).  Returns the file
operations, the mutated entry list, and the fresh-identity counter. -/
def writeLoop (env : Env) (cfg : Config) :
    List Entry → Nat → Option (List FileOp × List Entry × Nat)
  | [], idx => some ([], [], idx)
  | e :: rest, idx =>
    if e.modified then
      match e.date with
      | none => none
      | some d =>
        let utc := writeUtc env d
        let e' := fillDefaults env idx utc e
        let idx' := if e.uuid.isSome then idx else idx + 1
        let op := FileOp.writeFile (writeName cfg (e'.uuid.getD ""))
          (encodeRecord env cfg utc e')
        (writeLoop env cfg rest idx').map fun (ops, es, i) => (op :: ops, e' :: es, i)
    else
      (writeLoop env cfg rest idx).map fun (ops, es, i) => (ops, e :: es, i)

/-- The deletion loop of `DayOne.write`: remove
`journal/entries/<uuid>.doentry` for every pending deletion (the identity
is used as stored, not upper-cased); a deleted entry with no identity is
Python concatenating `None` with a string. -/
def deleteOps (cfg : Config) (dels : List Entry) : Option (List FileOp) :=
  dels.mapM fun e =>
    e.uuid.map fun u => FileOp.removeFile (cfg.journal ++ "/entries/" ++ u ++ ".doentry")

/-- `DayOne.write`: write every modified entry, then remove every pending
deletion.  Returns the filesystem operations in order and the mutated
entry list. -/
def write (env : Env) (cfg : Config) (S : DayOneStore) :
    Option (List FileOp × List Entry) := do
  let (wops, es, _) ← writeLoop env cfg S.entries 0
  let dops ← deleteOps cfg S.deleted
  pure (wops ++ dops, es)

/-- The timestamp-title line of the editable rendering of an entry. -/
def titleLineStr (e : Entry) : String :=
  "[" ++ dateStr (e.date.getD 0) ++ "] " ++ e.title ++ (if e.starred then " *" else "")

/-- The candidate entry the line scan reconstructs for a well-formed
entry `e`, with `b` the reassembled body text. -/
def mkCand (e : Entry) (b : String) : Entry :=
  { freshEntry with
    uuid := e.uuid
    date := e.date
    starred := e.starred
    title := stripS e.title
    body := b }

/-- The full rendered block of one entry inside `editable_str`
(`f"# {e.uuid}\n{str(e)}"`). -/
def blockStr (e : Entry) : String :=
  "# " ++ uuidStr e.uuid ++ "\n" ++ titleLineStr e ++ "\n" ++ e.body

/-! ## Well-formedness for the round-trip property

The editable rendering is not injective on arbitrary entries (a body line
may look like a header or a timestamp line, trailing whitespace is lost,
an upper-case identity is lower-cased by the parser).  `wfEntry` captures
the entries on which the render/parse round trip is lossless; each
conjunct corresponds to one way a raw entry defeats the parser. -/

/-- A body line that the line scan routes back into the body unchanged:
no trailing whitespace, not a `# hex` header, not a bracketed-timestamp
line. -/
def bodyLineOK (l : List Char) : Bool :=
  rstripCh l == l && (headerMatch ⟨l⟩).isNone && (dateBlobMatch ⟨l⟩).isNone

/-- Round-trip-safe entry: identity present, nonempty, lower-case hex;
timestamp present and nonnegative; not pending (`modified = false`);
title free of newlines, and when unstarred neither all-whitespace nor
ending (after `rstrip`) in `*`; every body line survives the scan; the
tag words of the text are already among the stored tags. -/
def wfEntry (cfg : Config) (e : Entry) : Bool :=
  (match e.uuid with
   | some u => u.data ≠ [] && u.data.all isLowerHex
   | none => false) &&
  (match e.date with
   | some d => (0 : Int) ≤ d
   | none => false) &&
  e.modified == false &&
  e.title.data.all (fun c => c.toNat ≠ 10) &&
  (e.starred || (stripCh e.title.data ≠ [] &&
    ((rstripCh e.title.data).getLast? != some '*'))) &&
  (linesCh e.body.data).all bodyLineOK &&
  decide (∀ t ∈ extractTags cfg (e.title ++ "\n" ++ e.body), t ∈ e.tags)

/-- Round-trip-safe store: every entry well-formed and identities
pairwise distinct. -/
def wfStore (cfg : Config) (S : DayOneStore) : Bool :=
  S.entries.all (wfEntry cfg) && decide ((S.entries.map (·.uuid)).Nodup)

/-! ## Concrete instances

Concrete configurations, environments, records, entries and documents on
which the claim theorems are exercised.  The `…res`/`ops…` definitions
extract the concrete outcome of an operation so that closed statements
can name it. -/

/-- A journal rooted at `j` with tag symbol `@`. -/
def cfgW : Config := ⟨"j", "@"⟩

/-- A host in zone `Europe/Berlin` (offset +60) with a two-zone database. -/
def envW : Env where
  tzdb := [("UTC", ⟨"UTC", 0⟩), ("Europe/Berlin", ⟨"Europe/Berlin", 60⟩)]
  localZone := ⟨"Europe/Berlin", 60⟩
  hostname := "host"
  platformSystem := "Linux"
  platformRelease := "6"
  title := "jrnl"
  version := "2"
  freshUuid := fun n => "f" ++ decStr n

/-- A round-trip-safe entry. -/
def w1 : Entry := { freshEntry with uuid := some "ab12", date := some 5, title := "hello", body := "one\ntwo" }

/-- A second round-trip-safe entry, starred and with an empty body. -/
def w2 : Entry := { freshEntry with uuid := some "cd34", date := some 9, title := "bye", starred := true }

/-- A well-formed two-entry store. -/
def SW : DayOneStore := ⟨[w1, w2], []⟩

/-- An entry whose stored identity contains an upper-case letter. -/
def eU : Entry := { freshEntry with uuid := some "A1", date := some 5, title := "t" }

/-- The store holding only `eU`, with no pending edits. -/
def SU : DayOneStore := ⟨[eU], []⟩

/-- The editable rendering of `SU`. -/
def docU : String := (editable_str SU).getD ""

/-- The result of parsing `docU` back against `SU`. -/
def SUres : DayOneStore := (parse_editable_str cfgW SU docU).getD ⟨[], []⟩

/-- Entry `A` of the deletion-detection scenario. -/
def eA : Entry := { freshEntry with uuid := some "aa", date := some 1, title := "a" }

/-- Entry `B` of the deletion-detection scenario. -/
def eB : Entry := { freshEntry with uuid := some "bb", date := some 2, title := "b" }

/-- Entry `C` of the deletion-detection scenario. -/
def eC : Entry := { freshEntry with uuid := some "cc", date := some 3, title := "c" }

/-- An edited document holding headers for `aa` and `cc` only: `aa` with a
changed timestamp and title, `cc` untouched. -/
def docAC : String := "# aa\n[4] x\n# cc\n[3] c"

/-- The candidates parsed from `docAC`. -/
def cands2 : List Entry := (parseCandidates docAC).getD []

/-- The reconciliation of `docAC` against the `{aa, bb, cc}` store. -/
def S2res : DayOneStore := (parse_editable_str cfgW ⟨[eA, eB, eC], []⟩ docAC).getD ⟨[], []⟩

/-- A stored entry carrying a tag and a device agent. -/
def mW3 : Entry := { freshEntry with uuid := some "ee", date := some 2, title := "old", tags := ["@x"], creator_device_agent := some "D" }

/-- A candidate with the same identity but a new title. -/
def candW3 : Entry := { freshEntry with uuid := some "ee", date := some 2, title := "new" }

/-- A key-complete record, indexed by its creation instant. -/
def mkRec (n : Nat) : PlistRecord :=
  { creationDate := some (Int.ofNat n), entryText := some "t", starred := some false,
    timeZone := some "UTC", uuidKey := some "aa", tags := none, creator := none,
    location := none, weather := none }

/-- A parseable record missing the required `Entry Text` key. -/
def recBad4 : PlistRecord := { mkRec 0 with entryText := none }

/-- Four key-complete record files. -/
def fs4a : List DFile := [DFile.record (mkRec 0), DFile.record (mkRec 1), DFile.record (mkRec 2), DFile.record (mkRec 3)]

/-- Five more key-complete record files. -/
def fs4b : List DFile := [DFile.record (mkRec 4), DFile.record (mkRec 5), DFile.record (mkRec 6), DFile.record (mkRec 7), DFile.record (mkRec 8)]

/-- A record naming a zone that is not in the database. -/
def recW5 : PlistRecord :=
  { creationDate := some 100, entryText := some "hi\nbody", starred := some false,
    timeZone := some "Mars/Base", uuidKey := some "ab", tags := none, creator := none,
    location := none, weather := none }

/-- The entry decoded from `recW5`. -/
def eW5 : Entry := (decodeRecord envW cfgW recW5).toOption.getD freshEntry

/-- A key-complete UTC record with no `Creator` sub-dictionary. -/
def recW6 : PlistRecord :=
  { creationDate := some 7, entryText := some "t", starred := some true,
    timeZone := some "UTC", uuidKey := some "cd", tags := some ["Work"], creator := none,
    location := none, weather := none }

/-- The entry decoded from `recW6`. -/
def eW6 : Entry := (decodeRecord envW cfgW recW6).toOption.getD freshEntry

/-- A modified entry pending a write. -/
def e7m : Entry := { freshEntry with uuid := some "ab", date := some 3, modified := true }

/-- An entry pending deletion, with a lower-case stored identity. -/
def e7d : Entry := { freshEntry with uuid := some "cd" }

/-- A store with one write and one deletion pending. -/
def S7 : DayOneStore := ⟨[e7m], [e7d]⟩

/-- The filesystem effects and mutated entries of saving `S7`. -/
def res7 : List FileOp × List Entry := (write envW cfgW S7).getD ([], [])

/-- An unmodified entry with identity `aa`. -/
def e8a : Entry := { freshEntry with uuid := some "aa", date := some 1 }

/-- A modified entry whose identity `AA` collides with `aa` upper-cased. -/
def e8b : Entry := { freshEntry with uuid := some "AA", date := some 2, modified := true }

/-- The colliding store. -/
def S8 : DayOneStore := ⟨[e8a, e8b], []⟩

/-- The file operations of saving `S8`. -/
def ops8 : List FileOp := ((write envW cfgW S8).getD ([], [])).1

/-- A modified entry whose identity does not collide with `aa`. -/
def e8c : Entry := { freshEntry with uuid := some "bb", date := some 2, modified := true }

/-- A store with one unmodified and one modified entry, identities
distinct even after upper-casing. -/
def S8w : DayOneStore := ⟨[e8a, e8c], []⟩

/-- The file operations of saving `S8w`. -/
def ops8w : List FileOp := ((write envW cfgW S8w).getD ([], [])).1

/-- The single file operation saving `S8w` performs. -/
def op8w : FileOp := ops8w.headD (FileOp.removeFile "")

/-- A stored entry with lower-case identity `ab`. -/
def e10a : Entry := { freshEntry with uuid := some "ab", date := some 2, title := "t" }

/-- A stored entry with upper-case identity `AB`. -/
def e10b : Entry := { freshEntry with uuid := some "AB", date := some 3 }

/-- The store holding both casings of the identity. -/
def S10 : DayOneStore := ⟨[e10a, e10b], []⟩

/-- An edited document whose single header matches both stored entries
case-insensitively. -/
def doc10 : String := "# ab\n[2] t"

/-- The candidates parsed from `doc10`. -/
def cands10 : List Entry := (parseCandidates doc10).getD []

/-- The reconciliation of `doc10` against `S10`. -/
def S10res : DayOneStore := (parse_editable_str cfgW S10 doc10).getD ⟨[], []⟩

/-! ## Lemmas: characters -/

theorem lowerChar_of_not_upper {c : Char} (h : ¬(65 ≤ c.toNat ∧ c.toNat ≤ 90)) :
    lowerChar c = c := by
  unfold lowerChar
  simp only [Bool.and_eq_true, decide_eq_true_eq]
  split
  · omega
  · rfl

theorem isLowerHex_toNat {c : Char} (h : isLowerHex c = true) :
    (97 ≤ c.toNat ∧ c.toNat ≤ 102) ∨ (48 ≤ c.toNat ∧ c.toNat ≤ 57) := by
  unfold isLowerHex at h
  simp only [Bool.or_eq_true, Bool.and_eq_true, decide_eq_true_eq] at h
  exact h

theorem lowerChar_of_lowerHex {c : Char} (h : isLowerHex c = true) : lowerChar c = c := by
  apply lowerChar_of_not_upper
  rcases isLowerHex_toNat h with h' | h' <;> omega

theorem not_isWS_of_lowerHex {c : Char} (h : isLowerHex c = true) : isWS c = false := by
  rcases isLowerHex_toNat h with h' | h' <;>
    · unfold isWS
      simp only [Bool.or_eq_false_iff, decide_eq_false_iff_not]
      omega

theorem not_nl_of_lowerHex {c : Char} (h : isLowerHex c = true) : c.toNat ≠ 10 := by
  rcases isLowerHex_toNat h with h' | h' <;> omega

theorem not_upper_of_lowerHex {c : Char} (h : isLowerHex c = true) :
    (65 ≤ c.toNat && c.toNat ≤ 90) = false := by
  rcases isLowerHex_toNat h with h' | h' <;>
    · simp only [Bool.and_eq_false_iff, decide_eq_false_iff_not]
      omega

theorem isDigitCh_toNat {c : Char} (h : isDigitCh c = true) :
    48 ≤ c.toNat ∧ c.toNat ≤ 57 := by
  unfold isDigitCh at h
  simp only [Bool.and_eq_true, decide_eq_true_eq] at h
  exact h

theorem lowerHex_of_digit {c : Char} (h : isDigitCh c = true) : isLowerHex c = true := by
  have := isDigitCh_toNat h
  unfold isLowerHex
  simp only [Bool.or_eq_true, Bool.and_eq_true, decide_eq_true_eq]
  omega

theorem not_isWS_of_digit {c : Char} (h : isDigitCh c = true) : isWS c = false :=
  not_isWS_of_lowerHex (lowerHex_of_digit h)

theorem digit_ne_rbracket {c : Char} (h : isDigitCh c = true) : c.toNat ≠ 93 := by
  have := isDigitCh_toNat h; omega

theorem digit_ne_nl {c : Char} (h : isDigitCh c = true) : c.toNat ≠ 10 := by
  have := isDigitCh_toNat h; omega

theorem lowerS_of_lowerHex {u : String} (h : u.data.all isLowerHex = true) :
    lowerS u = u := by
  unfold lowerS
  have hmap : u.data.map lowerChar = u.data := by
    conv_rhs => rw [← List.map_id u.data]
    apply List.map_congr_left
    intro c hc
    exact lowerChar_of_lowerHex (List.all_eq_true.mp h c hc)
  rw [hmap]

theorem toNat_ofNat_valid {n : Nat} (h : n.isValidChar) : (Char.ofNat n).toNat = n := by
  unfold Char.ofNat
  simp [h]
  rfl

theorem lowerChar_idem (c : Char) : lowerChar (lowerChar c) = lowerChar c := by
  unfold lowerChar
  split
  · rename_i h
    simp only [Bool.and_eq_true, decide_eq_true_eq] at h
    have hval : (Char.ofNat (c.toNat + 32)).toNat = c.toNat + 32 :=
      toNat_ofNat_valid (Or.inl (by omega))
    split
    · rename_i h2
      simp only [Bool.and_eq_true, decide_eq_true_eq, hval] at h2
      omega
    · rfl
  · rfl

theorem lowerS_idem (s : String) : lowerS (lowerS s) = lowerS s := by
  unfold lowerS
  apply congrArg String.mk
  simp only [List.map_map]
  apply List.map_congr_left
  intro c _
  exact lowerChar_idem c

/-! ## Lemmas: strip operations -/

theorem dropEndWhile_append_of_all {p : Char → Bool} {ys : List Char}
    (h : ys.all p = true) (xs : List Char) :
    dropEndWhile p (xs ++ ys) = dropEndWhile p xs := by
  unfold dropEndWhile
  rw [List.reverse_append, List.dropWhile_append]
  have : ys.reverse.dropWhile p = [] := by
    rw [List.dropWhile_eq_nil_iff]
    intro c hc
    simp only [List.mem_reverse] at hc
    exact List.all_eq_true.mp h c hc
  simp [this]

theorem dropEndWhile_append_last_false {p : Char → Bool} {c : Char}
    (h : p c = false) (xs ys : List Char) :
    dropEndWhile p (xs ++ c :: ys) = xs ++ c :: dropEndWhile p ys := by
  unfold dropEndWhile
  have hrev : (xs ++ c :: ys).reverse = ys.reverse ++ c :: xs.reverse := by simp
  rw [hrev, List.dropWhile_append]
  rcases hys : ys.reverse.dropWhile p with _ | ⟨d, ds⟩
  · simp [List.dropWhile_cons, h, hys]
  · simp [hys]

theorem dropEndWhile_nil (p : Char → Bool) : dropEndWhile p [] = [] := rfl

theorem dropEndWhile_sublist (p : Char → Bool) (l : List Char) :
    ∃ ys, l = dropEndWhile p l ++ ys ∧ ys.all p = true := by
  refine ⟨(l.reverse.takeWhile p).reverse, ?_, ?_⟩
  · unfold dropEndWhile
    rw [← List.reverse_append, List.takeWhile_append_dropWhile, List.reverse_reverse]
  · rw [List.all_eq_true]
    intro c hc
    simp only [List.mem_reverse] at hc
    exact List.mem_takeWhile_imp hc

theorem rstripCh_append_ws {ys : List Char} (h : ys.all isWS = true) (xs : List Char) :
    rstripCh (xs ++ ys) = rstripCh xs :=
  dropEndWhile_append_of_all h xs

theorem rstripCh_append_last {c : Char} (h : isWS c = false) (xs ys : List Char) :
    rstripCh (xs ++ c :: ys) = xs ++ c :: rstripCh ys :=
  dropEndWhile_append_last_false h xs ys

theorem rstripCh_eq_append (l : List Char) :
    ∃ ys, l = rstripCh l ++ ys ∧ ys.all isWS = true :=
  dropEndWhile_sublist isWS l

/-! ## Lemmas: line splitting -/

theorem linesCh_eq_nil_iff (l : List Char) : linesCh l = [] ↔ l = [] := by
  constructor
  · intro h
    cases l with
    | nil => rfl
    | cons c cs =>
      unfold linesCh at h
      split at h
      · exact absurd h (by simp)
      · split at h <;> simp_all
  · intro h; subst h; rfl

theorem linesCh_cons_not_nl {c : Char} (h : c.toNat ≠ 10) (cs : List Char) :
    linesCh (c :: cs) =
      match linesCh cs with
      | [] => [[c]]
      | l :: ls => (c :: l) :: ls := by
  conv_lhs => unfold linesCh
  simp [h]

theorem linesCh_cons_nl (cs : List Char) : linesCh ('\n' :: cs) = [] :: linesCh cs := by
  conv_lhs => unfold linesCh
  rfl

theorem linesCh_nil : linesCh [] = [] := rfl

theorem char_eq_of_toNat {c d : Char} (h : c.toNat = d.toNat) : c = d :=
  Char.ext (UInt32.ext h)

theorem linesCh_append_nl (xs ys : List Char) :
    linesCh (xs ++ '\n' :: ys) = linesCh (xs ++ ['\n']) ++ linesCh ys := by
  induction xs with
  | nil =>
    simp only [List.nil_append, linesCh_cons_nl, linesCh_nil]
    rfl
  | cons c cs ih =>
    by_cases hc : c.toNat = 10
    · have hc' : c = '\n' := char_eq_of_toNat (by rw [hc]; rfl)
      subst hc'
      rw [show ('\n' :: cs) ++ '\n' :: ys = '\n' :: (cs ++ '\n' :: ys) from rfl,
        linesCh_cons_nl,
        show ('\n' :: cs) ++ ['\n'] = '\n' :: (cs ++ ['\n']) from rfl,
        linesCh_cons_nl, ih]
      rfl
    · rw [show (c :: cs) ++ '\n' :: ys = c :: (cs ++ '\n' :: ys) from rfl,
        linesCh_cons_not_nl hc,
        show (c :: cs) ++ ['\n'] = c :: (cs ++ ['\n']) from rfl,
        linesCh_cons_not_nl hc]
      have hne : linesCh (cs ++ ['\n']) ≠ [] := by
        rw [ne_eq, linesCh_eq_nil_iff]
        simp
      rcases hl : linesCh (cs ++ ['\n']) with _ | ⟨l, ls⟩
      · exact absurd hl hne
      · rw [ih, hl]
        rfl

theorem linesCh_no_nl_append_nl {xs : List Char} (h : ∀ c ∈ xs, c.toNat ≠ 10) :
    linesCh (xs ++ ['\n']) = [xs] := by
  induction xs with
  | nil => rfl
  | cons c cs ih =>
    rw [List.cons_append, linesCh_cons_not_nl (h c (by simp)),
      ih (fun c hc => h c (by simp [hc]))]

theorem linesCh_no_nl {xs : List Char} (hne : xs ≠ []) (h : ∀ c ∈ xs, c.toNat ≠ 10) :
    linesCh xs = [xs] := by
  induction xs with
  | nil => exact absurd rfl hne
  | cons c cs ih =>
    rw [linesCh_cons_not_nl (h c (by simp))]
    cases cs with
    | nil => rfl
    | cons d ds =>
      rw [ih (by simp) (fun c hc => h c (by simp [hc]))]

/-- Splitting after appending a final newline: an extra empty line appears
exactly when the text was empty or already ended with a newline. -/
theorem linesCh_append_single_nl (xs : List Char) :
    linesCh (xs ++ ['\n']) =
      if xs = [] ∨ xs.getLast? = some '\n' then linesCh xs ++ [[]] else linesCh xs := by
  induction xs with
  | nil => rfl
  | cons c cs ih =>
    by_cases hc : c.toNat = 10
    · have hc' : c = '\n' := char_eq_of_toNat (by rw [hc]; rfl)
      subst hc'
      rw [show ('\n' :: cs) ++ ['\n'] = '\n' :: (cs ++ ['\n']) from rfl,
        linesCh_cons_nl, ih, linesCh_cons_nl]
      cases cs with
      | nil => simp
      | cons d ds =>
        have hlast : (('\n' : Char) :: d :: ds).getLast? = (d :: ds).getLast? := by
          simp [List.getLast?_cons_cons]
        rw [hlast]
        by_cases h2 : (d :: ds).getLast? = some '\n'
        · simp [h2]
        · simp [h2]
    · cases cs with
      | nil =>
        have hcond : ¬([c] = [] ∨ ([c] : List Char).getLast? = some '\n') := by
          simp only [List.getLast?_singleton]
          rintro (h | h)
          · simp at h
          · rw [Option.some_inj] at h
            subst h
            exact hc rfl
        rw [if_neg hcond,
          show [c] ++ ['\n'] = c :: ('\n' :: ([] : List Char)) from rfl,
          linesCh_cons_not_nl hc, linesCh_cons_nl, linesCh_nil,
          linesCh_cons_not_nl hc, linesCh_nil]
      | cons d ds =>
        have hlast : (c :: d :: ds).getLast? = (d :: ds).getLast? := by
          simp [List.getLast?_cons_cons]
        have hne : linesCh (d :: ds) ≠ [] := by
          rw [ne_eq, linesCh_eq_nil_iff]; simp
        rw [show (c :: d :: ds) ++ ['\n'] = c :: ((d :: ds) ++ ['\n']) from rfl,
          linesCh_cons_not_nl hc, ih, linesCh_cons_not_nl hc, hlast]
        by_cases h2 : (d :: ds).getLast? = some '\n'
        · rw [if_pos (Or.inr h2), if_pos (Or.inr h2)]
          rcases hl : linesCh (d :: ds) with _ | ⟨l, ls⟩
          · exact absurd hl hne
          · simp
        · rw [if_neg (by simpa using h2), if_neg (by simpa using h2)]

/-- Members of the lines of `xs ++ ['\n']` are lines of `xs` or empty. -/
theorem mem_linesCh_append_nl {xs : List Char} {l : List Char}
    (h : l ∈ linesCh (xs ++ ['\n'])) : l ∈ linesCh xs ∨ l = [] := by
  rw [linesCh_append_single_nl] at h
  split at h
  · rcases List.mem_append.mp h with h1 | h1
    · exact Or.inl h1
    · simp at h1
      exact Or.inr h1
  · exact Or.inl h

/-- Re-joining the lines (each with a newline appended) recovers the text
up to one trailing newline. -/
theorem flatten_linesCh (xs : List Char) (hne : xs ≠ []) :
    ((linesCh xs).map (· ++ ['\n'])).flatten = xs ∨
      ((linesCh xs).map (· ++ ['\n'])).flatten = xs ++ ['\n'] := by
  induction xs with
  | nil => exact absurd rfl hne
  | cons c cs ih =>
    by_cases hc : c.toNat = 10
    · have hc' : c = '\n' := char_eq_of_toNat (by rw [hc]; rfl)
      subst hc'
      rw [linesCh_cons_nl]
      cases cs with
      | nil => simp [linesCh_nil]
      | cons d ds =>
        rcases ih (by simp) with h | h <;> simp [h]
    · rw [linesCh_cons_not_nl hc]
      cases cs with
      | nil => simp [linesCh_nil]
      | cons d ds =>
        have hne2 : linesCh (d :: ds) ≠ [] := by
          rw [ne_eq, linesCh_eq_nil_iff]; simp
        rcases hl : linesCh (d :: ds) with _ | ⟨l, ls⟩
        · exact absurd hl hne2
        · rcases ih (by simp) with h | h
          · rw [hl] at h
            simp only [List.map_cons, List.flatten_cons, List.cons_append,
              List.append_assoc, List.singleton_append] at h ⊢
            exact Or.inl (by rw [h])
          · rw [hl] at h
            simp only [List.map_cons, List.flatten_cons, List.cons_append,
              List.append_assoc, List.singleton_append] at h ⊢
            exact Or.inr (by rw [h])

/-! ## Lemmas: word splitting -/

theorem wordsAux_nil (acc : List Char) :
    wordsAux [] acc = if acc.isEmpty then [] else [acc.reverse] := rfl

theorem wordsAux_cons_ws {c : Char} (h : isWS c = true) (cs acc : List Char) :
    wordsAux (c :: cs) acc =
      if acc.isEmpty then wordsAux cs [] else acc.reverse :: wordsAux cs [] := by
  conv_lhs => unfold wordsAux
  rw [if_pos h]

theorem wordsAux_cons_not_ws {c : Char} (h : isWS c = false) (cs acc : List Char) :
    wordsAux (c :: cs) acc = wordsAux cs (c :: acc) := by
  conv_lhs => unfold wordsAux
  rw [if_neg (by simp [h])]

theorem wordsAux_append_ws_single {w : Char} (hw : isWS w = true) :
    ∀ (xs : List Char) (acc : List Char),
      wordsAux (xs ++ [w]) acc = wordsAux xs acc := by
  intro xs
  induction xs with
  | nil =>
    intro acc
    rw [List.nil_append, wordsAux_cons_ws hw, wordsAux_nil, wordsAux_nil]
    by_cases h : acc.isEmpty <;> simp [h]
  | cons c cs ih =>
    intro acc
    rw [List.cons_append]
    by_cases h : isWS c
    · rw [wordsAux_cons_ws h, wordsAux_cons_ws h, ih]
    · rw [wordsAux_cons_not_ws (by simpa using h), wordsAux_cons_not_ws (by simpa using h), ih]

theorem wordsAux_append_ws_run {ys : List Char} (hy : ys.all isWS = true) :
    ∀ (xs : List Char) (acc : List Char),
      wordsAux (xs ++ ys) acc = wordsAux xs acc := by
  induction ys with
  | nil => intro xs acc; simp
  | cons w ws ih =>
    intro xs acc
    simp only [List.all_cons, Bool.and_eq_true] at hy
    rw [show xs ++ w :: ws = (xs ++ [w]) ++ ws by simp,
      ih hy.2, wordsAux_append_ws_single hy.1]

theorem wordsAux_split_ws {w : Char} (hw : isWS w = true) :
    ∀ (xs ys : List Char) (acc : List Char),
      wordsAux (xs ++ w :: ys) acc = wordsAux (xs ++ [w]) acc ++ wordsAux ys [] := by
  intro xs
  induction xs with
  | nil =>
    intro ys acc
    rw [List.nil_append, List.nil_append, wordsAux_cons_ws hw, wordsAux_cons_ws hw,
      wordsAux_nil]
    by_cases h : acc.isEmpty <;> simp [h]
  | cons c cs ih =>
    intro ys acc
    rw [List.cons_append, List.cons_append]
    by_cases h : isWS c
    · rw [wordsAux_cons_ws h, wordsAux_cons_ws h, ih]
      by_cases ha : acc.isEmpty <;> simp [ha]
    · rw [wordsAux_cons_not_ws (by simpa using h),
        wordsAux_cons_not_ws (by simpa using h), ih]

theorem wordsCh_split_nl (xs ys : List Char) :
    wordsCh (xs ++ '\n' :: ys) = wordsCh xs ++ wordsCh ys := by
  unfold wordsCh
  rw [wordsAux_split_ws (by rfl), wordsAux_append_ws_single (by rfl)]

theorem wordsAux_dropWhile_ws (xs : List Char) :
    wordsAux (xs.dropWhile isWS) [] = wordsAux xs [] := by
  induction xs with
  | nil => rfl
  | cons c cs ih =>
    by_cases h : isWS c
    · rw [List.dropWhile_cons_of_pos h, ih, wordsAux_cons_ws h]
      simp
    · rw [List.dropWhile_cons_of_neg (by simp [h])]

theorem wordsCh_rstrip (xs : List Char) : wordsCh (rstripCh xs) = wordsCh xs := by
  obtain ⟨ys, hdecomp, hws⟩ := rstripCh_eq_append xs
  conv_rhs => rw [hdecomp]
  unfold wordsCh
  rw [wordsAux_append_ws_run hws]

theorem wordsCh_strip (xs : List Char) : wordsCh (stripCh xs) = wordsCh xs := by
  unfold stripCh
  rw [show wordsCh ((rstripCh xs).dropWhile isWS) = wordsAux ((rstripCh xs).dropWhile isWS) [] from rfl,
    wordsAux_dropWhile_ws]
  exact wordsCh_rstrip xs

theorem wordsCh_append_nl_end (xs : List Char) :
    wordsCh (xs ++ ['\n']) = wordsCh xs := by
  unfold wordsCh
  exact wordsAux_append_ws_single (by rfl) xs []

/-! ## Lemmas: decimal round-trip -/

theorem digitVal_digitChar {d : Nat} (h : d < 10) : digitVal (digitChar d) = d := by
  interval_cases d <;> rfl

theorem isDigitCh_digitChar (d : Nat) : isDigitCh (digitChar d) = true := by
  unfold digitChar
  split <;> rfl

theorem decAux_all_digits : ∀ fuel n, (decAux fuel n).all isDigitCh = true := by
  intro fuel
  induction fuel with
  | zero => intro n; rfl
  | succ f ih =>
    intro n
    unfold decAux
    split
    · rfl
    · rw [List.all_append, ih (n / 10)]
      simp [isDigitCh_digitChar]

theorem decAux_ne_nil {fuel n : Nat} (hn : n ≠ 0) (hf : n ≤ fuel) :
    decAux fuel n ≠ [] := by
  cases fuel with
  | zero => omega
  | succ f =>
    unfold decAux
    rw [if_neg hn]
    simp

theorem foldl_decAux : ∀ fuel n acc, n ≤ fuel →
    (decAux fuel n).foldl (fun a c => a * 10 + digitVal c) acc =
      acc * 10 ^ (decAux fuel n).length + n := by
  intro fuel
  induction fuel with
  | zero =>
    intro n acc h
    interval_cases n
    simp [decAux]
  | succ f ih =>
    intro n acc h
    unfold decAux
    by_cases hn : n = 0
    · simp [hn]
    · rw [if_neg hn]
      have hdiv : n / 10 ≤ f := by
        have h1 : n / 10 < n := Nat.div_lt_self (by omega) (by omega)
        omega
      rw [List.foldl_append, ih (n / 10) acc hdiv]
      simp only [List.foldl_cons, List.foldl_nil, List.length_append,
        List.length_cons, List.length_nil]
      rw [digitVal_digitChar (Nat.mod_lt n (by omega))]
      have hmod : 10 * (n / 10) + n % 10 = n := Nat.div_add_mod n 10
      ring_nf
      omega

theorem timeParse_decStr (n : Nat) : timeParse (decStr n) = some (Int.ofNat n) := by
  by_cases hn : n = 0
  · subst hn
    decide
  · unfold decStr timeParse
    rw [if_neg hn]
    have hne : decAux n n ≠ [] := decAux_ne_nil hn (le_refl n)
    have hall : (decAux n n).all isDigitCh = true := decAux_all_digits n n
    rw [if_pos ⟨hne, hall⟩]
    rw [foldl_decAux n n 0 (le_refl n)]
    simp

theorem timeParse_dateStr {d : Int} (h : 0 ≤ d) : timeParse (dateStr d) = some d := by
  unfold dateStr
  rw [timeParse_decStr]
  congr 1
  exact_mod_cast Int.toNat_of_nonneg h

theorem decStr_all_digits (n : Nat) : (decStr n).data.all isDigitCh = true := by
  unfold decStr
  split
  · rfl
  · exact decAux_all_digits n n

theorem decStr_ne_nil (n : Nat) : (decStr n).data ≠ [] := by
  unfold decStr
  split
  · simp
  · exact decAux_ne_nil (by assumption) (le_refl n)

/-! ## Lemmas: the scanners on rendered lines -/

theorem headerMatch_header {u : String} (hne : u.data ≠ [])
    (hhex : u.data.all isLowerHex = true) :
    headerMatch ("# " ++ u) = some u := by
  unfold headerMatch
  have hdata : ("# " ++ u).data = '#' :: ' ' :: u.data := rfl
  rw [hdata]
  have hfix : u.data.map lowerChar = u.data := by
    conv_rhs => rw [← List.map_id u.data]
    exact List.map_congr_left fun c hc =>
      lowerChar_of_lowerHex (List.all_eq_true.mp hhex c hc)
  simp only [List.map_cons, hfix]
  rw [show lowerChar '#' = '#' from rfl, show lowerChar ' ' = ' ' from rfl]
  have hdrop : (' ' :: u.data).dropWhile (fun c => decide (c.toNat = 32)) = u.data := by
    rw [List.dropWhile_cons_of_pos (by simp)]
    rcases hu : u.data with _ | ⟨v, vs⟩
    · rfl
    · rw [List.dropWhile_cons_of_neg]
      have hv : isLowerHex v = true := by
        have := List.all_eq_true.mp hhex v (by rw [hu]; simp)
        exact this
      rcases isLowerHex_toNat hv with h | h <;> simp <;> omega
  have htake : u.data.takeWhile isLowerHex = u.data :=
    List.takeWhile_eq_self_iff.mpr (fun c hc => List.all_eq_true.mp hhex c hc)
  simp only [hdrop, htake]
  rw [List.drop_length]
  rw [if_pos (show ('#' : Char).toNat = 35 from rfl), if_pos (And.intro hne
    (show (([] : List Char).all fun c => decide (c.toNat = 32)) = true from rfl))]

theorem headerMatch_not_hash {line : String}
    (h : ∀ c rest, line.data = c :: rest → (lowerChar c).toNat ≠ 35) :
    headerMatch line = none := by
  unfold headerMatch
  rcases hl : line.data with _ | ⟨c, rest⟩
  · rfl
  · simp only [List.map_cons]
    rw [if_neg (h c rest hl)]

theorem lowerChar_toNat_eq_35 {c : Char} (h : (lowerChar c).toNat = 35) :
    c.toNat = 35 := by
  unfold lowerChar at h
  split at h
  · rename_i hcond
    simp only [Bool.and_eq_true, decide_eq_true_eq] at hcond
    rw [toNat_ofNat_valid (Or.inl (by omega))] at h
    omega
  · exact h

/-- The rendered timestamp-title line, parametrized by the timestamp
digits `ds`, the raw title and the star flag. -/
theorem dateBlobMatch_title {ds : List Char} (hne : ds ≠ [])
    (hdig : ds.all isDigitCh = true) (T : List Char) :
    dateBlobMatch ⟨'[' :: (ds ++ ']' :: ' ' :: T)⟩ =
      some ⟨'[' :: ds ++ [']', ' ']⟩ := by
  unfold dateBlobMatch
  simp only
  rw [if_pos (by rfl)]
  have htake : (ds ++ ']' :: ' ' :: T).takeWhile (fun c => decide (c.toNat ≠ 93)) = ds := by
    rw [List.takeWhile_append]
    have h1 : ds.takeWhile (fun c => decide (c.toNat ≠ 93)) = ds :=
      List.takeWhile_eq_self_iff.mpr (fun c hc => by
        simp only [decide_eq_true_eq]
        exact digit_ne_rbracket (List.all_eq_true.mp hdig c hc))
    rw [h1]
    simp
  rw [htake]
  have hlen : (ds ++ ']' :: ' ' :: T).drop ds.length = ']' :: ' ' :: T := by
    rw [show ds.length = ds.length + 0 from rfl]
    rw [List.drop_append]
    rfl
  rw [hlen]
  simp [hne]

theorem dateBlobMatch_nil : dateBlobMatch ⟨[]⟩ = none := rfl

/-! ## Lemmas: more `rstrip`/`strip` structure -/

theorem dropWhile_head_false {p : Char → Bool} :
    ∀ {l : List Char} {c : Char} {rest : List Char},
      l.dropWhile p = c :: rest → p c = false := by
  intro l
  induction l with
  | nil => intro c rest h; simp at h
  | cons d ds ih =>
    intro c rest h
    by_cases hd : p d
    · rw [List.dropWhile_cons_of_pos hd] at h
      exact ih h
    · rw [List.dropWhile_cons_of_neg hd] at h
      cases h
      simpa using hd

theorem rstripCh_last_not_ws {l : List Char} (h : rstripCh l ≠ []) :
    ∃ init c, rstripCh l = init ++ [c] ∧ isWS c = false := by
  unfold rstripCh dropEndWhile at h ⊢
  rcases hr : l.reverse.dropWhile isWS with _ | ⟨c, rest⟩
  · rw [hr] at h; simp at h
  · refine ⟨rest.reverse, c, ?_, dropWhile_head_false hr⟩
    simp

theorem rstripCh_append_of_ne_nil {ys : List Char} (h : rstripCh ys ≠ [])
    (xs : List Char) : rstripCh (xs ++ ys) = xs ++ rstripCh ys := by
  obtain ⟨ws, hdecomp, hws⟩ := rstripCh_eq_append ys
  obtain ⟨init, c, heq, hc⟩ := rstripCh_last_not_ws h
  conv_lhs => rw [hdecomp]
  rw [show xs ++ (rstripCh ys ++ ws) = (xs ++ rstripCh ys) ++ ws by simp,
    rstripCh_append_ws hws, heq,
    show xs ++ (init ++ [c]) = (xs ++ init) ++ c :: [] by simp,
    rstripCh_append_last hc]
  simp [rstripCh, dropEndWhile]

theorem rstripCh_of_all_ws {l : List Char} (h : l.all isWS = true) :
    rstripCh l = [] := by
  have := rstripCh_append_ws h ([] : List Char)
  simpa using this

theorem rstripCh_concat_not_ws {c : Char} (h : isWS c = false) (xs : List Char) :
    rstripCh (xs ++ [c]) = xs ++ [c] := by
  have := rstripCh_append_last h xs ([] : List Char)
  simpa [rstripCh, dropEndWhile] using this

theorem stripCh_space_cons (xs : List Char) : stripCh (' ' :: xs) = stripCh xs := by
  by_cases h : rstripCh xs = []
  · obtain ⟨ws, hdecomp, hws⟩ := rstripCh_eq_append xs
    rw [h] at hdecomp
    simp only [List.nil_append] at hdecomp
    subst hdecomp
    unfold stripCh
    rw [h, rstripCh_of_all_ws (by simp [hws]; rfl)]
  · unfold stripCh
    rw [show (' ' :: xs) = [' '] ++ xs from rfl, rstripCh_append_of_ne_nil h,
      show [' '] ++ rstripCh xs = ' ' :: rstripCh xs from rfl,
      List.dropWhile_cons_of_pos (by rfl)]

theorem stripCh_append_ws {ws : List Char} (hws : ws.all isWS = true) (xs : List Char) :
    stripCh (xs ++ ws) = stripCh xs := by
  unfold stripCh
  rw [rstripCh_append_ws hws]

/-- A nonempty `stripCh` result starts and ends with a non-whitespace
character. -/
theorem stripCh_ends {xs c rest} (hs : stripCh xs = c :: rest) :
    isWS c = false ∧ ∃ init e, c :: rest = init ++ [e] ∧ isWS e = false := by
  have hc : isWS c = false := dropWhile_head_false hs
  have hpre : rstripCh xs = (rstripCh xs).takeWhile isWS ++ c :: rest := by
    conv_lhs => rw [← List.takeWhile_append_dropWhile (p := isWS) (l := rstripCh xs)]
    rw [show (rstripCh xs).dropWhile isWS = stripCh xs from rfl, hs]
  have hne : rstripCh xs ≠ [] := by
    rw [hpre]; simp
  obtain ⟨init, e, heq, he⟩ := rstripCh_last_not_ws hne
  have hlast : (c :: rest).getLast? = some e := by
    have h1 : (rstripCh xs).getLast? = some e := by
      rw [heq]; exact List.getLast?_concat init
    rw [hpre, List.getLast?_append_of_ne_nil _ (by simp)] at h1
    exact h1
  refine ⟨hc, (c :: rest).dropLast, e, Eq.symm (List.dropLast_append_getLast? e hlast), he⟩

theorem stripCh_idem (xs : List Char) : stripCh (stripCh xs) = stripCh xs := by
  rcases hs : stripCh xs with _ | ⟨c, rest⟩
  · rfl
  · obtain ⟨hc, init, e, heq, he⟩ := stripCh_ends hs
    unfold stripCh
    rw [heq, rstripCh_concat_not_ws he init, ← heq,
      List.dropWhile_cons_of_neg (by simp [hc])]

theorem rstripCh_idem (l : List Char) : rstripCh (rstripCh l) = rstripCh l := by
  rcases h : rstripCh l with _ | ⟨c, rest⟩
  · rfl
  · obtain ⟨init, e, heq, he⟩ := rstripCh_last_not_ws (l := l) (by rw [h]; simp)
    rw [← h, heq]
    exact rstripCh_concat_not_ws he init

theorem rstripCh_ne_nil_of_strip {l : List Char} (h : stripCh l ≠ []) :
    rstripCh l ≠ [] := by
  intro h0
  apply h
  unfold stripCh
  rw [h0]
  rfl

theorem stripCh_rstrip (l : List Char) : stripCh (rstripCh l) = stripCh l := by
  unfold stripCh
  rw [rstripCh_idem]

/-! ## Lemmas: one step of the line scan -/

theorem headerMatch_cons_not_hash {c : Char} (hc : (lowerChar c).toNat ≠ 35)
    (rest : List Char) : headerMatch ⟨c :: rest⟩ = none := by
  unfold headerMatch
  simp only [List.map_cons]
  rw [if_neg hc]

theorem rstripS_header {u : String} (hne : u.data ≠ [])
    (hhex : u.data.all isLowerHex = true) :
    rstripS ("# " ++ u) = "# " ++ u := by
  rcases List.eq_nil_or_concat u.data with h | ⟨init, b, heq⟩
  · exact absurd h hne
  · unfold rstripS
    have hdata : ("# " ++ u).data = ('#' :: ' ' :: init) ++ [b] := by
      rw [show ("# " ++ u).data = '#' :: ' ' :: u.data from rfl, heq,
        List.concat_eq_append]
      simp
    rw [hdata, rstripCh_concat_not_ws (not_isWS_of_lowerHex
      (List.all_eq_true.mp hhex b (by rw [heq, List.concat_eq_append]; simp)))]
    apply congrArg String.mk
    rw [← hdata]
    rfl

theorem stepLine_header {u : String} (hne : u.data ≠ [])
    (hhex : u.data.all isLowerHex = true) (st : PState) :
    stepLine st ("# " ++ u) =
      some ⟨st.acc ++ st.cur.toList,
        some { freshEntry with modified := false, uuid := some u }⟩ := by
  unfold stepLine
  simp only [rstripS_header hne hhex, headerMatch_header hne hhex,
    lowerS_of_lowerHex hhex]

theorem stepLine_body {l : List Char} (hok : bodyLineOK l = true)
    (acc : List Entry) (c : Entry) :
    stepLine ⟨acc, some c⟩ ⟨l⟩ =
      some ⟨acc, some { c with body := c.body ++ ⟨l⟩ ++ "\n" }⟩ := by
  unfold bodyLineOK at hok
  simp only [Bool.and_eq_true, beq_iff_eq, Option.isNone_iff_eq_none] at hok
  obtain ⟨⟨hr, hh⟩, hb⟩ := hok
  unfold stepLine
  have hrs : rstripS ⟨l⟩ = ⟨l⟩ := by
    unfold rstripS
    rw [show (⟨l⟩ : String).data = l from rfl, hr]
  simp only [hrs, hh, hb]

/-- The digit characters of a rendered timestamp are outside the
`" []"` strip set. -/
theorem digit_not_in_blob_set {c : Char} (h : isDigitCh c = true) :
    (decide (c ∈ [' ', '[', ']'])) = false := by
  have hn := isDigitCh_toNat h
  simp only [decide_eq_false_iff_not, List.mem_cons, List.not_mem_nil, or_false]
  rintro (rfl | rfl | rfl) <;> exact absurd hn (by decide)

theorem stripSet_blob {D : List Char} (hne : D ≠ []) (hdig : D.all isDigitCh = true) :
    stripSetCh [' ', '[', ']'] ('[' :: D ++ [']', ' ']) = D := by
  unfold stripSetCh
  have h1 : dropEndWhile (fun c => decide (c ∈ [' ', '[', ']'])) ('[' :: D ++ [']', ' '])
      = '[' :: D := by
    rw [show '[' :: D ++ [']', ' '] = ('[' :: D) ++ [']', ' '] from rfl,
      dropEndWhile_append_of_all (by rfl)]
    rcases List.eq_nil_or_concat D with h | ⟨init, b, heq⟩
    · exact absurd h hne
    · rw [heq, List.concat_eq_append,
        show '[' :: (init ++ [b]) = ('[' :: init) ++ b :: [] from rfl,
        dropEndWhile_append_last_false (digit_not_in_blob_set
          (List.all_eq_true.mp hdig b (by rw [heq, List.concat_eq_append]; simp)))]
      rfl
  rw [h1]
  rw [List.dropWhile_cons_of_pos (by rfl)]
  rcases hD : D with _ | ⟨d0, ds⟩
  · exact absurd hD hne
  · rw [List.dropWhile_cons_of_neg]
    rw [digit_not_in_blob_set (List.all_eq_true.mp hdig d0 (by rw [hD]; simp))]
    simp

theorem timeParse_stripSet_blob {d : Int} (hd0 : 0 ≤ d) :
    timeParse ⟨stripSetCh [' ', '[', ']'] ('[' :: (dateStr d).data ++ [']', ' '])⟩
      = some d := by
  unfold dateStr
  rw [stripSet_blob (decStr_ne_nil d.toNat) (decStr_all_digits d.toNat),
    show (⟨(decStr d.toNat).data⟩ : String) = decStr d.toNat from rfl,
    timeParse_decStr]
  congr 1
  exact_mod_cast Int.toNat_of_nonneg hd0

theorem str_ext {a b : String} (h : a.data = b.data) : a = b := by
  cases a; cases b; cases h; rfl

theorem data_append (a b : String) : (a ++ b).data = a.data ++ b.data := rfl

/-- One scan step on the rendered timestamp-title line: the current
candidate receives the star flag, the stripped title and the parsed
timestamp. -/
theorem stepLine_title {e : Entry} {d : Int} (hd : e.date = some d) (hd0 : 0 ≤ d)
    (hok : e.starred = true ∨
      (stripCh e.title.data ≠ [] ∧ (rstripCh e.title.data).getLast? ≠ some '*'))
    (acc : List Entry) (c : Entry) :
    stepLine ⟨acc, some c⟩ (titleLineStr e) =
      some ⟨acc, some { c with
        starred := if e.starred then true else c.starred
        title := stripS e.title
        date := some d }⟩ := by
  have hDne := decStr_ne_nil d.toNat
  have hDdig := decStr_all_digits d.toNat
  have hDne' : (dateStr d).data ≠ [] := hDne
  have hDdig' : (dateStr d).data.all isDigitCh = true := hDdig
  by_cases hstar : e.starred = true
  · have hdata : titleLineStr e =
        ⟨'[' :: ((dateStr d).data ++ ']' :: ' ' :: (e.title.data ++ [' ', '*']))⟩ := by
      apply str_ext
      unfold titleLineStr
      rw [hd, hstar]
      simp [data_append]
    rw [hdata]
    unfold stepLine
    have hrs : rstripS ⟨'[' :: ((dateStr d).data ++ ']' :: ' ' :: (e.title.data ++ [' ', '*']))⟩
        = ⟨'[' :: ((dateStr d).data ++ ']' :: ' ' :: (e.title.data ++ [' ', '*']))⟩ := by
      unfold rstripS
      apply congrArg String.mk
      rw [show '[' :: ((dateStr d).data ++ ']' :: ' ' :: (e.title.data ++ [' ', '*']))
          = ('[' :: (dateStr d).data ++ ']' :: ' ' :: e.title.data ++ [' ']) ++ ['*']
          from by simp]
      rw [rstripCh_concat_not_ws (by rfl)]
    simp only [hrs]
    rw [headerMatch_cons_not_hash (by decide),
      dateBlobMatch_title hDne' hDdig' (e.title.data ++ [' ', '*'])]
    have hlast : ('[' :: ((dateStr d).data ++ ']' :: ' ' :: (e.title.data ++ [' ', '*']))).getLast?
        = some '*' := by
      rw [show '[' :: ((dateStr d).data ++ ']' :: ' ' :: (e.title.data ++ [' ', '*']))
          = ('[' :: (dateStr d).data ++ ']' :: ' ' :: e.title.data ++ [' ']) ++ ['*']
          from by simp]
      exact List.getLast?_concat _
    have hdrop : ('[' :: ((dateStr d).data ++ ']' :: ' ' :: (e.title.data ++ [' ', '*']))).dropLast
        = ('[' :: (dateStr d).data ++ [']']) ++ (' ' :: (e.title.data ++ [' '])) := by
      rw [show '[' :: ((dateStr d).data ++ ']' :: ' ' :: (e.title.data ++ [' ', '*']))
          = (('[' :: (dateStr d).data ++ [']']) ++ (' ' :: (e.title.data ++ [' ']))) ++ ['*']
          from by simp]
      exact List.dropLast_concat ..
    simp only [hlast, eq_self_iff_true, if_true]
    have hlen : ('[' :: (dateStr d).data ++ [']', ' ']).length - 1
        = ('[' :: (dateStr d).data ++ [']']).length := by
      simp
    rw [hdrop, hlen, List.drop_left, timeParse_stripSet_blob hd0]
    have htitle : stripCh (' ' :: (e.title.data ++ [' '])) = stripCh e.title.data := by
      rw [stripCh_space_cons, stripCh_append_ws (by rfl)]
    rw [htitle, hstar]
    rfl
  · obtain ⟨hts, htlast⟩ := hok.resolve_left hstar
    have hstar' : e.starred = false := by
      cases h : e.starred
      · rfl
      · exact absurd h hstar
    have hRne : rstripCh e.title.data ≠ [] := rstripCh_ne_nil_of_strip hts
    have hdata : titleLineStr e =
        ⟨('[' :: (dateStr d).data ++ [']', ' ']) ++ e.title.data⟩ := by
      apply str_ext
      unfold titleLineStr
      rw [hd, hstar']
      simp [data_append]
    rw [hdata]
    unfold stepLine
    have hrs : rstripS ⟨('[' :: (dateStr d).data ++ [']', ' ']) ++ e.title.data⟩
        = ⟨'[' :: ((dateStr d).data ++ ']' :: ' ' :: rstripCh e.title.data)⟩ := by
      unfold rstripS
      apply congrArg String.mk
      rw [show (⟨('[' :: (dateStr d).data ++ [']', ' ']) ++ e.title.data⟩ : String).data
          = ('[' :: (dateStr d).data ++ [']', ' ']) ++ e.title.data from rfl]
      rw [rstripCh_append_of_ne_nil hRne]
      simp
    simp only [hrs]
    rw [headerMatch_cons_not_hash (by decide),
      dateBlobMatch_title hDne' hDdig' (rstripCh e.title.data)]
    have hlast : ('[' :: ((dateStr d).data ++ ']' :: ' ' :: rstripCh e.title.data)).getLast?
        = (rstripCh e.title.data).getLast? := by
      rw [show '[' :: ((dateStr d).data ++ ']' :: ' ' :: rstripCh e.title.data)
          = ('[' :: (dateStr d).data ++ [']', ' ']) ++ rstripCh e.title.data from by simp]
      exact List.getLast?_append_of_ne_nil _ hRne
    rw [hlast, if_neg htlast, if_neg htlast]
    simp only [show (⟨'[' :: (dateStr d).data ++ [']', ' ']⟩ : String).data
      = '[' :: (dateStr d).data ++ [']', ' '] from rfl]
    have hlen : ('[' :: (dateStr d).data ++ [']', ' ']).length - 1
        = ('[' :: (dateStr d).data ++ [']']).length := by
      simp
    have hsplit : '[' :: ((dateStr d).data ++ ']' :: ' ' :: rstripCh e.title.data)
        = ('[' :: (dateStr d).data ++ [']']) ++ (' ' :: rstripCh e.title.data) := by
      simp
    rw [hlen, hsplit, List.drop_left, timeParse_stripSet_blob hd0]
    have htitle : stripCh (' ' :: rstripCh e.title.data) = stripCh e.title.data := by
      rw [stripCh_space_cons]
      exact stripCh_rstrip e.title.data
    rw [htitle, hstar']
    rfl

/-! ## Lemmas: the scan over a rendered document -/

theorem foldlM_body_lines :
    ∀ {B : List (List Char)}, B.all bodyLineOK = true →
    ∀ (acc : List Entry) (c : Entry) (rest : List String),
      (B.map String.mk ++ rest).foldlM stepLine ⟨acc, some c⟩ =
        rest.foldlM stepLine
          ⟨acc, some { c with body := c.body ++ ⟨(B.map (· ++ ['\n'])).flatten⟩ }⟩ := by
  intro B
  induction B with
  | nil =>
    intro _ acc c rest
    have hc : ({ c with body := c.body ++ ⟨([] : List (List Char)).map (· ++ ['\n']) |>.flatten⟩ }) = c := by
      have : c.body ++ (⟨(([] : List (List Char)).map (· ++ ['\n'])).flatten⟩ : String) = c.body := by
        apply str_ext
        simp [data_append]
      rw [this]
    rw [hc]
    simp
  | cons l B ih =>
    intro hB acc c rest
    simp only [List.all_cons, Bool.and_eq_true] at hB
    simp only [List.map_cons, List.cons_append]
    rw [List.foldlM_cons, stepLine_body hB.1]
    show (B.map String.mk ++ rest).foldlM stepLine _ = _
    rw [ih hB.2]
    have hbody : ({ c with body := c.body ++ (⟨l⟩ : String) ++ "\n" }).body ++
        (⟨(B.map (· ++ ['\n'])).flatten⟩ : String) =
        c.body ++ ⟨((l :: B).map (· ++ ['\n'])).flatten⟩ := by
      apply str_ext
      simp [data_append]
    simp only [hbody]
    rfl

/-- Scanning one entry's rendered lines: builds the reconstructed
candidate and hands the remaining lines the updated state. -/
theorem scan_entry {cfg : Config} {e : Entry} (hwf : wfEntry cfg e = true)
    {d : Int} (hd : e.date = some d) {u : String} (hu : e.uuid = some u)
    {B : List (List Char)} (hB : ∀ l ∈ B, l ∈ linesCh e.body.data ∨ l = [])
    (acc : List Entry) (cur : Option Entry) (rest : List String) :
    (("# " ++ u) :: titleLineStr e :: (B.map String.mk ++ rest)).foldlM stepLine ⟨acc, cur⟩ =
      rest.foldlM stepLine
        ⟨acc ++ cur.toList, some (mkCand e ⟨(B.map (· ++ ['\n'])).flatten⟩)⟩ := by
  unfold wfEntry at hwf
  simp only [Bool.and_eq_true, beq_iff_eq, decide_eq_true_eq] at hwf
  obtain ⟨⟨⟨⟨⟨⟨hid, hdate⟩, hmod⟩, hnl⟩, hstarcond⟩, hbodyok⟩, htags⟩ := hwf
  rw [hu] at hid
  simp only [Bool.and_eq_true, decide_eq_true_eq, ne_eq] at hid
  obtain ⟨hune, huhex⟩ := hid
  rw [hd] at hdate
  have hd0 : (0 : Int) ≤ d := by simpa using hdate
  have hstarcond' : e.starred = true ∨
      (stripCh e.title.data ≠ [] ∧ (rstripCh e.title.data).getLast? ≠ some '*') := by
    rcases Bool.or_eq_true _ _ |>.mp hstarcond with h | h
    · exact Or.inl h
    · simp only [Bool.and_eq_true, decide_eq_true_eq, bne_iff_ne, ne_eq] at h
      exact Or.inr ⟨h.1, h.2⟩
  have hBok : B.all bodyLineOK = true := by
    rw [List.all_eq_true]
    intro l hl
    rcases hB l hl with h | h
    · exact List.all_eq_true.mp hbodyok l h
    · subst h; rfl
  rw [List.foldlM_cons, stepLine_header hune huhex]
  show (titleLineStr e :: (B.map String.mk ++ rest)).foldlM stepLine _ = _
  rw [List.foldlM_cons, stepLine_title hd hd0 hstarcond']
  show (B.map String.mk ++ rest).foldlM stepLine _ = _
  rw [foldlM_body_lines hBok]
  have hcand : ({ { freshEntry with modified := false, uuid := some u } with
      starred := if e.starred then true else
        ({ freshEntry with modified := false, uuid := some u } : Entry).starred,
      title := stripS e.title, date := some d } : Entry).body
        = ("" : String) := rfl
  have hstar2 : (if e.starred then true else
      ({ freshEntry with modified := false, uuid := some u } : Entry).starred) = e.starred := by
    cases h : e.starred <;> rfl
  have hempty : freshEntry.body ++ (⟨(B.map (· ++ ['\n'])).flatten⟩ : String)
      = ⟨(B.map (· ++ ['\n'])).flatten⟩ := by
    apply str_ext
    simp [data_append, freshEntry]
  simp only [hstar2, hempty]
  unfold mkCand
  rw [hd, hu]
  rfl

theorem body_reassembly (xs : List Char) :
    rstripCh (((linesCh xs).map (· ++ ['\n'])).flatten) = rstripCh xs := by
  rcases hxs : xs with _ | ⟨c, cs⟩
  · rfl
  · rw [← hxs]
    rcases flatten_linesCh xs (by rw [hxs]; simp) with h | h
    · rw [h]
    · rw [h]
      exact rstripCh_append_ws (by rfl) xs

theorem body_reassembly_nl (xs : List Char) :
    rstripCh (((linesCh (xs ++ ['\n'])).map (· ++ ['\n'])).flatten) = rstripCh xs := by
  rcases flatten_linesCh (xs ++ ['\n']) (by simp) with h | h
  · rw [h]
    exact rstripCh_append_ws (by rfl) xs
  · rw [h, show (xs ++ ['\n']) ++ ['\n'] = xs ++ ['\n', '\n'] from by simp]
    exact rstripCh_append_ws (by rfl) xs

theorem header_no_nl {u : String} (hhex : u.data.all isLowerHex = true) :
    ∀ c ∈ ("# " ++ u).data, c.toNat ≠ 10 := by
  intro c hc
  rw [show ("# " ++ u).data = '#' :: ' ' :: u.data from rfl] at hc
  rcases hc with _ | ⟨_, hc⟩
  · decide
  · rcases hc with _ | ⟨_, hc⟩
    · decide
    · exact not_nl_of_lowerHex (List.all_eq_true.mp hhex c (by simpa using hc))

theorem titleLine_no_nl {cfg : Config} {e : Entry} (hwf : wfEntry cfg e = true) :
    ∀ c ∈ (titleLineStr e).data, c.toNat ≠ 10 := by
  unfold wfEntry at hwf
  simp only [Bool.and_eq_true, beq_iff_eq, decide_eq_true_eq] at hwf
  obtain ⟨⟨⟨⟨⟨⟨-, -⟩, -⟩, hnl⟩, -⟩, -⟩, -⟩ := hwf
  intro c hc
  unfold titleLineStr at hc
  simp only [data_append, List.mem_append] at hc
  rcases hc with ((hc | hc) | hc) | hc
  · rcases hc with hc | hc
    · rcases hc with _ | ⟨_, hc⟩
      · decide
      · exact absurd hc (List.not_mem_nil c)
    · unfold dateStr at hc
      exact digit_ne_nl (List.all_eq_true.mp (decStr_all_digits _) c hc)
  · rcases hc with _ | ⟨_, hc⟩
    · decide
    · rcases hc with _ | ⟨_, hc⟩
      · decide
      · exact absurd hc (List.not_mem_nil c)
  · have := List.all_eq_true.mp hnl c hc
    simpa using this
  · split at hc
    · rcases hc with _ | ⟨_, hc⟩
      · decide
      · rcases hc with _ | ⟨_, hc⟩
        · decide
        · exact absurd hc (List.not_mem_nil c)
    · exact absurd hc (List.not_mem_nil c)

/-- The lines of a single rendered block. -/
theorem splitlines_block {cfg : Config} {e : Entry} (hwf : wfEntry cfg e = true)
    {u : String} (hu : e.uuid = some u) (hhex : u.data.all isLowerHex = true) :
    splitlines (blockStr e) =
      ("# " ++ u) :: titleLineStr e :: (linesCh e.body.data).map String.mk := by
  unfold splitlines
  have hdata : (blockStr e).data =
      ("# " ++ u).data ++ '\n' :: ((titleLineStr e).data ++ '\n' :: e.body.data) := by
    unfold blockStr uuidStr
    rw [hu]
    simp [data_append]
  rw [hdata, linesCh_append_nl, linesCh_no_nl_append_nl (header_no_nl hhex),
    linesCh_append_nl, linesCh_no_nl_append_nl (titleLine_no_nl hwf)]
  rfl

/-- The lines of a rendered block followed by further document text. -/
theorem splitlines_block_append {cfg : Config} {e : Entry} (hwf : wfEntry cfg e = true)
    {u : String} (hu : e.uuid = some u) (hhex : u.data.all isLowerHex = true)
    (rest : String) :
    splitlines (blockStr e ++ "\n" ++ rest) =
      ("# " ++ u) :: titleLineStr e ::
        ((linesCh (e.body.data ++ ['\n'])).map String.mk ++ splitlines rest) := by
  unfold splitlines
  have hdata : (blockStr e ++ "\n" ++ rest).data =
      ("# " ++ u).data ++ '\n' ::
        ((titleLineStr e).data ++ '\n' :: ((e.body.data ++ ['\n']) ++ rest.data)) := by
    unfold blockStr uuidStr
    rw [hu]
    simp [data_append]
  rw [hdata, linesCh_append_nl, linesCh_no_nl_append_nl (header_no_nl hhex),
    linesCh_append_nl, linesCh_no_nl_append_nl (titleLine_no_nl hwf),
    show (e.body.data ++ ['\n']) ++ rest.data = e.body.data ++ '\n' :: rest.data from by simp,
    linesCh_append_nl]
  simp only [List.map_append, List.map_cons, List.singleton_append, List.cons_append,
    List.nil_append]

theorem joinNL_cons_cons (a b : String) (l : List String) :
    joinNL (a :: b :: l) = a ++ "\n" ++ joinNL (b :: l) := rfl

/-- Scanning the whole rendered document: one reconstructed candidate per
well-formed entry, in order. -/
theorem scan_entries (cfg : Config) :
    ∀ (es : List Entry), es.all (wfEntry cfg) = true →
    ∀ (acc : List Entry) (cur : Option Entry),
      ∃ cands,
        ((splitlines (joinNL (es.map blockStr))).foldlM stepLine
            (⟨acc, cur⟩ : PState)).map (fun st => st.acc ++ st.cur.toList) =
          some (acc ++ cur.toList ++ cands) ∧
        List.Forall₂ (fun e c => c.uuid = e.uuid ∧ ∃ b : String, c = mkCand e b ∧
          rstripCh b.data = rstripCh e.body.data) es cands := by
  intro es
  induction es with
  | nil =>
    intro _ acc cur
    refine ⟨[], ?_, List.Forall₂.nil⟩
    simp [joinNL, splitlines, linesCh]
  | cons e es ih =>
    intro hwf acc cur
    simp only [List.all_cons, Bool.and_eq_true] at hwf
    obtain ⟨hwfe, hwfes⟩ := hwf
    obtain ⟨u, hu, huhex⟩ : ∃ u, e.uuid = some u ∧ u.data.all isLowerHex = true := by
      unfold wfEntry at hwfe
      simp only [Bool.and_eq_true] at hwfe
      rcases he : e.uuid with _ | u
      · rw [he] at hwfe
        simp at hwfe
      · refine ⟨u, rfl, ?_⟩
        have := hwfe.1.1.1.1.1.1
        rw [he] at this
        simp only [Bool.and_eq_true] at this
        exact this.2
    obtain ⟨d, hd⟩ : ∃ d, e.date = some d := by
      unfold wfEntry at hwfe
      simp only [Bool.and_eq_true] at hwfe
      rcases he : e.date with _ | d
      · have := hwfe.1.1.1.1.1.2
        rw [he] at this
        simp at this
      · exact ⟨d, rfl⟩
    cases es with
    | nil =>
      refine ⟨[mkCand e ⟨((linesCh e.body.data).map (· ++ ['\n'])).flatten⟩], ?_, ?_⟩
      · rw [show (([e].map blockStr)) = [blockStr e] from rfl,
          show joinNL [blockStr e] = blockStr e from rfl,
          splitlines_block hwfe hu huhex,
          show ("# " ++ u) :: titleLineStr e :: (linesCh e.body.data).map String.mk
            = ("# " ++ u) :: titleLineStr e :: ((linesCh e.body.data).map String.mk ++ [])
            from by simp,
          scan_entry hwfe hd hu (fun l hl => Or.inl hl)]
        simp
      · exact List.Forall₂.cons ⟨rfl, ⟨_, rfl, body_reassembly e.body.data⟩⟩
          List.Forall₂.nil
    | cons f fs =>
      have hjoin : joinNL ((e :: f :: fs).map blockStr) =
          blockStr e ++ "\n" ++ joinNL ((f :: fs).map blockStr) := rfl
      rw [hjoin, splitlines_block_append hwfe hu huhex,
        scan_entry hwfe hd hu (fun l hl => mem_linesCh_append_nl hl)]
      obtain ⟨cands', hfold, hfa⟩ := ih hwfes (acc ++ cur.toList)
        (some (mkCand e ⟨((linesCh (e.body.data ++ ['\n'])).map (· ++ ['\n'])).flatten⟩))
      refine ⟨mkCand e ⟨((linesCh (e.body.data ++ ['\n'])).map (· ++ ['\n'])).flatten⟩ :: cands',
        ?_, ?_⟩
      · rw [hfold]
        simp
      · exact List.Forall₂.cons ⟨rfl, ⟨_, rfl, body_reassembly_nl e.body.data⟩⟩ hfa

/-! ## Lemmas: text re-derivation and the structural-equality merge -/

theorem takeWhile_append_all {p : Char → Bool} :
    ∀ {l₁ : List Char}, (∀ c ∈ l₁, p c = true) → ∀ l₂ : List Char,
      (l₁ ++ l₂).takeWhile p = l₁ ++ l₂.takeWhile p := by
  intro l₁
  induction l₁ with
  | nil => intro _ l₂; simp
  | cons c cs ih =>
    intro h l₂
    rw [List.cons_append, List.takeWhile_cons_of_pos (h c (by simp)),
      ih (fun x hx => h x (by simp [hx])) l₂]
    rfl

theorem dropWhile_append_all {p : Char → Bool} :
    ∀ {l₁ : List Char}, (∀ c ∈ l₁, p c = true) → ∀ l₂ : List Char,
      (l₁ ++ l₂).dropWhile p = l₂.dropWhile p := by
  intro l₁
  induction l₁ with
  | nil => intro _ l₂; simp
  | cons c cs ih =>
    intro h l₂
    rw [List.cons_append, List.dropWhile_cons_of_pos (h c (by simp)),
      ih (fun x hx => h x (by simp [hx])) l₂]

theorem firstLine_concat {t : String} (hnl : ∀ c ∈ t.data, c.toNat ≠ 10) (b : String) :
    firstLine (t ++ "\n" ++ b) = t := by
  unfold firstLine
  have hdata : (t ++ "\n" ++ b).data = t.data ++ '\n' :: b.data := by
    simp [data_append]
  rw [hdata, takeWhile_append_all (fun c hc => by simp [hnl c hc]),
    List.takeWhile_cons_of_neg (by simp)]
  apply str_ext
  simp

theorem restLines_concat {t : String} (hnl : ∀ c ∈ t.data, c.toNat ≠ 10) (b : String) :
    restLines (t ++ "\n" ++ b) = b := by
  unfold restLines
  have hdata : (t ++ "\n" ++ b).data = t.data ++ '\n' :: b.data := by
    simp [data_append]
  rw [hdata, dropWhile_append_all (fun c hc => by simp [hnl c hc]),
    List.dropWhile_cons_of_neg (by simp)]
  apply str_ext
  simp

theorem mem_rstripCh {c : Char} {l : List Char} (h : c ∈ rstripCh l) : c ∈ l := by
  obtain ⟨ys, hdecomp, -⟩ := rstripCh_eq_append l
  rw [hdecomp]
  exact List.mem_append.mpr (Or.inl h)

theorem mem_stripCh {c : Char} {l : List Char} (h : c ∈ stripCh l) : c ∈ l := by
  unfold stripCh at h
  exact mem_rstripCh ((List.dropWhile_sublist _).mem h)

theorem stripS_idem (s : String) : stripS (stripS s) = stripS s := by
  unfold stripS
  apply congrArg String.mk
  exact stripCh_idem s.data

/-- The tag words of a reconstructed candidate's text agree with those of
the entry's own text. -/
theorem extractTags_reconstructed (cfg : Config) {e : Entry} {b : String}
    (hb : rstripCh b.data = rstripCh e.body.data) :
    extractTags cfg (stripS e.title ++ "\n" ++ b) =
      extractTags cfg (e.title ++ "\n" ++ e.body) := by
  unfold extractTags
  have h1 : (stripS e.title ++ "\n" ++ b).data = stripCh e.title.data ++ '\n' :: b.data := by
    simp [data_append, stripS]
  have h2 : (e.title ++ "\n" ++ e.body).data = e.title.data ++ '\n' :: e.body.data := by
    simp [data_append]
  rw [h1, h2, wordsCh_split_nl, wordsCh_split_nl, wordsCh_strip]
  have hwords : wordsCh b.data = wordsCh e.body.data := by
    rw [← wordsCh_rstrip b.data, hb, wordsCh_rstrip]
  rw [hwords]

theorem parseTextUpdate_uuid (cfg : Config) (x : Entry) :
    (parseTextUpdate cfg x).uuid = x.uuid := rfl

/-- Reconstructed candidate against its own entry: the tag/metadata merge
produces a structurally equal entry, so reconciliation keeps the
original. -/
theorem merged_eq_of_wf {cfg : Config} {e : Entry} (hwf : wfEntry cfg e = true)
    {b : String} (hb : rstripCh b.data = rstripCh e.body.data) :
    entryEqB e (mergeFromMatch (parseTextUpdate cfg (mkCand e b)) e) = true := by
  unfold wfEntry at hwf
  simp only [Bool.and_eq_true, beq_iff_eq, decide_eq_true_eq] at hwf
  obtain ⟨⟨⟨⟨⟨⟨-, -⟩, -⟩, hnl⟩, -⟩, -⟩, htags⟩ := hwf
  have hnl' : ∀ c ∈ e.title.data, c.toNat ≠ 10 := by
    intro c hc
    simpa using List.all_eq_true.mp hnl c hc
  have hnlstrip : ∀ c ∈ (stripS e.title).data, c.toNat ≠ 10 := by
    intro c hc
    exact hnl' c (mem_stripCh hc)
  have hcand : parseTextUpdate cfg (mkCand e b) =
      { mkCand e b with
        title := stripS e.title
        body := b
        tags := extractTags cfg (e.title ++ "\n" ++ e.body) } := by
    unfold parseTextUpdate
    simp only
    rw [show (mkCand e b).title = stripS e.title from rfl,
      show (mkCand e b).body = b from rfl,
      firstLine_concat hnlstrip, restLines_concat hnlstrip,
      extractTags_reconstructed cfg hb]
  rw [hcand]
  have h1 : stripS (stripS e.title) = stripS e.title := stripS_idem e.title
  have h2 : rstripS b = rstripS e.body := by
    unfold rstripS
    exact congrArg String.mk hb
  unfold entryEqB mergeFromMatch mkCand freshEntry
  simp only [Option.or_none]
  simp [h1, h2]
  exact ⟨fun t ht => Or.inr ht, fun t ht => ht.elim (fun h => htags t h) (fun h => h)⟩

/-! ## Lemmas: reconciliation on a well-formed store -/

theorem wfEntry_fields {cfg : Config} {x : Entry} (h : wfEntry cfg x = true) :
    (∃ v, x.uuid = some v ∧ v.data ≠ [] ∧ v.data.all isLowerHex = true) ∧
    (∃ d, x.date = some d ∧ (0 : Int) ≤ d) ∧ x.modified = false := by
  unfold wfEntry at h
  simp only [Bool.and_eq_true, beq_iff_eq] at h
  obtain ⟨⟨⟨⟨⟨⟨hid, hdate⟩, hmod⟩, -⟩, -⟩, -⟩, -⟩ := h
  refine ⟨?_, ?_, hmod⟩
  · rcases hx : x.uuid with _ | v
    · rw [hx] at hid; simp at hid
    · rw [hx] at hid
      simp only [Bool.and_eq_true, decide_eq_true_eq, ne_eq] at hid
      exact ⟨v, rfl, hid.1, hid.2⟩
  · rcases hx : x.date with _ | d
    · rw [hx] at hdate; simp at hdate
    · rw [hx] at hdate
      simp only [decide_eq_true_eq] at hdate
      exact ⟨d, rfl, hdate⟩

theorem find?_ci_wf :
    ∀ {es : List Entry}, (es.map (·.uuid)).Nodup →
    (∀ x ∈ es, ∀ v, x.uuid = some v → v.data.all isLowerHex = true) →
    ∀ {e : Entry}, e ∈ es → ∀ {u : String}, e.uuid = some u →
      es.find? (fun x => ciMatch x.uuid (some u)) = some e := by
  intro es
  induction es with
  | nil => intro _ _ e he; simp at he
  | cons h t ih =>
    intro hnodup hlower e he u hu
    rcases List.mem_cons.mp he with he | he
    · subst he
      rw [List.find?_cons_of_pos]
      unfold ciMatch
      rw [hu]
      simp
    · have hul : lowerS u = u :=
        lowerS_of_lowerHex (hlower e (List.mem_cons_of_mem h he) u hu)
      have hne : h.uuid ≠ some u := by
        intro hcontra
        have h1 : h.uuid ∉ t.map (·.uuid) := (List.nodup_cons.mp hnodup).1
        have h2 : e.uuid ∈ t.map (·.uuid) := List.mem_map_of_mem _ he
        rw [hu] at h2
        rw [hcontra] at h1
        exact h1 h2
      rw [List.find?_cons_of_neg, ih (List.nodup_cons.mp hnodup).2
        (fun x hx => hlower x (List.mem_cons_of_mem h hx)) he hu]
      unfold ciMatch
      rcases hh : h.uuid with _ | v
      · simp
      · have hvl : lowerS v = v := lowerS_of_lowerHex (hlower h (by simp) v hh)
        simp only [Option.map_some', beq_iff_eq, Option.some_inj, hvl, hul]
        intro hcontra
        rw [hh, hcontra] at hne
        exact hne rfl

theorem foldl_reconcile_unchanged {cfg : Config} {es : List Entry}
    (hnodup : (es.map (·.uuid)).Nodup)
    (hwfall : es.all (wfEntry cfg) = true) :
    ∀ cands : List Entry,
      (∀ c ∈ cands, ∃ e ∈ es, c.uuid = e.uuid ∧ ∃ b : String,
        c = mkCand e b ∧ rstripCh b.data = rstripCh e.body.data) →
      cands.foldl (reconcileStep cfg) es = es := by
  intro cands
  induction cands with
  | nil => intro _; rfl
  | cons c cs ih =>
    intro hc
    rw [List.foldl_cons]
    have hlower : ∀ x ∈ es, ∀ v, x.uuid = some v → v.data.all isLowerHex = true := by
      intro x hx v hv
      obtain ⟨⟨v', hv', _, hhex⟩, -, -⟩ := wfEntry_fields (List.all_eq_true.mp hwfall x hx)
      rw [hv] at hv'
      cases hv'
      exact hhex
    have hstep : reconcileStep cfg es c = es := by
      obtain ⟨e, he, huuid, b, hcb, hb⟩ := hc c (by simp)
      obtain ⟨⟨u, hu, -, -⟩, -, -⟩ := wfEntry_fields (List.all_eq_true.mp hwfall e he)
      have hfind : es.find? (fun x => ciMatch x.uuid (parseTextUpdate cfg c).uuid)
          = some e := by
        have : (parseTextUpdate cfg c).uuid = some u := by
          rw [parseTextUpdate_uuid, huuid, hu]
        rw [this]
        exact find?_ci_wf hnodup hlower he hu
      have heq : entryEqB e (mergeFromMatch (parseTextUpdate cfg c) e) = true := by
        rw [hcb]
        exact merged_eq_of_wf (List.all_eq_true.mp hwfall e he) hb
      unfold reconcileStep
      simp only [hfind, heq, if_true]
    rw [hstep]
    exact ih (fun x hx => hc x (by simp [hx]))

theorem forall₂_mem_right {α β : Type} {R : α → β → Prop} :
    ∀ {as : List α} {bs : List β}, List.Forall₂ R as bs →
      ∀ b ∈ bs, ∃ a ∈ as, R a b := by
  intro as bs h
  induction h with
  | nil => intro b hb; simp at hb
  | cons hr _ ih =>
    intro b hb
    rcases List.mem_cons.mp hb with hb | hb
    · subst hb
      exact ⟨_, by simp, hr⟩
    · obtain ⟨a, ha, har⟩ := ih b hb
      exact ⟨a, by simp [ha], har⟩

theorem forall₂_map_uuid :
    ∀ {es cands : List Entry},
      List.Forall₂ (fun e c => c.uuid = e.uuid ∧ ∃ b : String,
        c = mkCand e b ∧ rstripCh b.data = rstripCh e.body.data) es cands →
      cands.map (·.uuid) = es.map (·.uuid) := by
  intro es cands h
  induction h with
  | nil => rfl
  | cons hr _ ih => simp [ih, hr.1]

/-- Reconciling the reconstructed candidates of a well-formed store
leaves the entry list untouched and schedules no deletion. -/
theorem reconcile_roundtrip {cfg : Config} {S : DayOneStore}
    (hwf : wfStore cfg S = true) {cands : List Entry}
    (hfa : List.Forall₂ (fun e c => c.uuid = e.uuid ∧ ∃ b : String,
      c = mkCand e b ∧ rstripCh b.data = rstripCh e.body.data) S.entries cands) :
    reconcile cfg S cands = ⟨S.entries, []⟩ := by
  unfold wfStore at hwf
  simp only [Bool.and_eq_true, decide_eq_true_eq] at hwf
  obtain ⟨hwfall, hnodup⟩ := hwf
  have hfold : cands.foldl (reconcileStep cfg) S.entries = S.entries :=
    foldl_reconcile_unchanged hnodup hwfall cands
      (forall₂_mem_right hfa)
  unfold reconcile
  simp only [hfold, forall₂_map_uuid hfa]
  have hin : ∀ e ∈ S.entries, decide (e.uuid ∈ S.entries.map (·.uuid)) = true := by
    intro e he
    simp only [decide_eq_true_eq]
    exact List.mem_map_of_mem _ he
  have hout : ∀ e ∈ S.entries, ¬(decide (e.uuid ∉ S.entries.map (·.uuid)) = true) := by
    intro e he
    simp only [decide_eq_true_eq, Decidable.not_not]
    exact List.mem_map_of_mem _ he
  rw [List.filter_eq_self.mpr hin, List.filter_eq_nil_iff.mpr hout]

/-- On a well-formed store, `editable_str` succeeds and renders the
concatenation of the entry blocks. -/
theorem editable_str_blocks :
    ∀ {es : List Entry}, (∀ e ∈ es, e.date.isSome = true) →
      es.mapM (fun e => (entryStr e).map (fun s => "# " ++ uuidStr e.uuid ++ "\n" ++ s))
        = some (es.map blockStr) := by
  intro es
  induction es with
  | nil => intro _; rfl
  | cons e es ih =>
    intro hd
    obtain ⟨d, hde⟩ : ∃ d, e.date = some d :=
      Option.isSome_iff_exists.mp (hd e (by simp))
    rw [List.mapM_cons, ih (fun x hx => hd x (by simp [hx]))]
    have hblock : (entryStr e).map (fun s => "# " ++ uuidStr e.uuid ++ "\n" ++ s)
        = some (blockStr e) := by
      unfold entryStr
      rw [hde]
      simp only [Option.map_some']
      apply congrArg some
      apply str_ext
      unfold blockStr titleLineStr
      rw [hde]
      simp [data_append]
    rw [hblock]
    rfl

/-- The round-trip core: rendering a well-formed store and reconciling
the parse leaves the store's entries intact with no pending deletion. -/
theorem roundtrip_core {cfg : Config} {S : DayOneStore} (hwf : wfStore cfg S = true) :
    ∃ doc, editable_str S = some doc ∧
      parse_editable_str cfg S doc = some ⟨S.entries, []⟩ := by
  have hwf' := hwf
  unfold wfStore at hwf'
  simp only [Bool.and_eq_true, decide_eq_true_eq] at hwf'
  obtain ⟨hwfall, -⟩ := hwf'
  have hdates : ∀ e ∈ S.entries, e.date.isSome = true := by
    intro e he
    obtain ⟨-, ⟨d, hd, -⟩, -⟩ := wfEntry_fields (List.all_eq_true.mp hwfall e he)
    rw [hd]
    rfl
  refine ⟨joinNL (S.entries.map blockStr), ?_, ?_⟩
  · unfold editable_str
    rw [editable_str_blocks hdates]
    rfl
  · obtain ⟨cands, hfold, hfa⟩ := scan_entries cfg S.entries hwfall [] none
    unfold parse_editable_str parseCandidates
    rw [show (⟨[], none⟩ : PState) = ⟨[], none⟩ from rfl] at hfold
    simp only [List.nil_append, Option.toList_none] at hfold
    rw [hfold]
    simp only [Option.map_some']
    rw [reconcile_roundtrip hwf hfa]

/-! ## Lemmas: list search and removal -/

theorem find?_split {α : Type} {p : α → Bool} :
    ∀ {l : List α} {a : α}, l.find? p = some a →
      ∃ l1 l2, l = l1 ++ a :: l2 ∧ ∀ x ∈ l1, p x = false := by
  intro l
  induction l with
  | nil => intro a h; simp at h
  | cons h t ih =>
    intro a hf
    by_cases hp : p h = true
    · rw [List.find?_cons_of_pos _ hp] at hf
      cases hf
      exact ⟨[], t, rfl, by simp⟩
    · rw [List.find?_cons_of_neg _ (by simpa using hp)] at hf
      obtain ⟨l1, l2, hl, hpre⟩ := ih hf
      refine ⟨h :: l1, l2, by rw [hl]; rfl, ?_⟩
      intro x hx
      rcases List.mem_cons.mp hx with hx | hx
      · subst hx; simpa using hp
      · exact hpre x hx

theorem find?_unique {α : Type} {p : α → Bool} :
    ∀ {l : List α} {x : α}, x ∈ l → p x = true →
      (∀ z ∈ l, z ≠ x → p z = false) → l.find? p = some x := by
  intro l
  induction l with
  | nil => intro x hx; simp at hx
  | cons h t ih =>
    intro x hx hpx hz
    by_cases hhx : h = x
    · subst hhx
      exact List.find?_cons_of_pos _ hpx
    · rw [List.find?_cons_of_neg _ (by simp [hz h (by simp) hhx])]
      rcases List.mem_cons.mp hx with hx | hx
      · exact absurd hx.symm hhx
      · exact ih hx hpx (fun z hzt => hz z (List.mem_cons_of_mem h hzt))

theorem entryEqB_refl (a : Entry) : entryEqB a a = true := by
  simp [entryEqB]

theorem entryEqB_uuid {a b : Entry} (h : entryEqB a b = true) : a.uuid = b.uuid := by
  unfold entryEqB at h
  simp only [Bool.and_eq_true, beq_iff_eq] at h
  exact h.1.1.1.1.1.1.1.1.1.1.1.1.1

theorem removeFirstEq_append {m : Entry} :
    ∀ {l1 : List Entry} (l2 : List Entry), (∀ x ∈ l1, entryEqB x m = false) →
      removeFirstEq (l1 ++ m :: l2) m = l1 ++ l2 := by
  intro l1
  induction l1 with
  | nil =>
    intro l2 _
    show (if entryEqB m m = true then l2 else m :: removeFirstEq l2 m) = [] ++ l2
    rw [if_pos (entryEqB_refl m)]
    rfl
  | cons a l1 ih =>
    intro l2 hpre
    show (if entryEqB a m = true then l1 ++ m :: l2
      else a :: removeFirstEq (l1 ++ m :: l2) m) = a :: (l1 ++ l2)
    rw [if_neg (by simp [hpre a (by simp)])]
    rw [ih l2 (fun x hx => hpre x (List.mem_cons_of_mem a hx))]

/-- The two outcomes of processing a candidate that has a match: the match
is kept when structurally equal to the merged candidate, else the first
occurrence of the match is removed and the merged candidate appended. -/
theorem reconcileStep_match {cfg : Config} {W : List Entry} {cand0 m : Entry}
    (hfind : W.find? (fun e => ciMatch e.uuid (parseTextUpdate cfg cand0).uuid) = some m) :
    (entryEqB m (mergeFromMatch (parseTextUpdate cfg cand0) m) = true →
      reconcileStep cfg W cand0 = W) ∧
    (entryEqB m (mergeFromMatch (parseTextUpdate cfg cand0) m) = false →
      ∃ W1 W2, W = W1 ++ m :: W2 ∧
        (∀ z ∈ W1, ciMatch z.uuid (parseTextUpdate cfg cand0).uuid = false) ∧
        reconcileStep cfg W cand0 =
          (W1 ++ W2) ++ [{ mergeFromMatch (parseTextUpdate cfg cand0) m with modified := true }]) := by
  constructor
  · intro heq
    unfold reconcileStep
    simp only [hfind, heq, if_true]
  · intro hne
    obtain ⟨W1, W2, hW, hpre⟩ := find?_split hfind
    have hpm : ciMatch m.uuid (parseTextUpdate cfg cand0).uuid = true := by
      simpa using List.find?_some hfind
    have hrm : removeFirstEq W m = W1 ++ W2 := by
      rw [hW]
      refine removeFirstEq_append W2 ?_
      intro x hx
      by_contra hcon
      have hx' : entryEqB x m = true := by
        cases hxe : entryEqB x m
        · exact absurd hxe hcon
        · rfl
      have : ciMatch x.uuid (parseTextUpdate cfg cand0).uuid = true := by
        rw [entryEqB_uuid hx']
        exact hpm
      rw [hpre x hx] at this
      exact Bool.false_ne_true this
    refine ⟨W1, W2, hW, hpre, ?_⟩
    unfold reconcileStep
    simp only [hfind, hne, Bool.false_eq_true, if_false]
    rw [hrm]

/-- Processing a candidate with no match appends it, marked modified. -/
theorem reconcileStep_nomatch {cfg : Config} {W : List Entry} {cand0 : Entry}
    (hfind : W.find? (fun e => ciMatch e.uuid (parseTextUpdate cfg cand0).uuid) = none) :
    reconcileStep cfg W cand0 = W ++ [{ parseTextUpdate cfg cand0 with modified := true }] := by
  unfold reconcileStep
  simp only [hfind]

theorem or_isSome {α : Type} (a b : Option α) :
    a.or b = if a.isSome then a else b := by
  cases a <;> rfl

/-! ## Claim theorems -/

/-- Claim C1 (corrected: the round trip is the identity only on
well-formed stores).  For a store whose entries carry nonempty lower-hex
pairwise-distinct identities, present nonnegative timestamps, no pending
`modified` flag, titles/bodies that survive the line scan, and text tags
already stored, `editable_str` succeeds and reparsing its output yields
the same entry list in content and order, no entry marked modified, and
an empty deletion set. -/
theorem claim1_roundtrip (cfg : Config) (S : DayOneStore) (hwf : wfStore cfg S = true) :
    ∃ doc, editable_str S = some doc ∧
      parse_editable_str cfg S doc = some ⟨S.entries, []⟩ ∧
      ∀ e ∈ S.entries, e.modified = false := by
  obtain ⟨doc, h1, h2⟩ := roundtrip_core hwf
  refine ⟨doc, h1, h2, fun e he => ?_⟩
  have hall : S.entries.all (wfEntry cfg) = true := by
    unfold wfStore at hwf
    simp only [Bool.and_eq_true] at hwf
    exact hwf.1
  exact (wfEntry_fields (List.all_eq_true.mp hall e he)).2.2

/-- Claim C1 counterexample: the store `SU` has no pending edits (its one
entry is unmodified), yet rendering and reparsing it returns the entry
re-created with `modified = true` — the stored upper-case identity `A1`
is lower-cased by the parser, so the structural comparison sees two
different identities. -/
theorem claim1_roundtrip_counterexample :
    SU.entries.map (fun e => e.modified) = [false] ∧
    editable_str SU = some docU ∧
    parse_editable_str cfgW SU docU = some SUres ∧
    SUres.entries.map (fun e => e.modified) = [true] :=
  ⟨rfl, rfl, rfl, rfl⟩

/-- Claim C1 witness: the two-entry store `SW` is well-formed and round
trips unchanged. -/
theorem claim1_roundtrip_witness :
    wfStore cfgW SW = true ∧
    ∃ doc, editable_str SW = some doc ∧
      parse_editable_str cfgW SW doc = some ⟨SW.entries, []⟩ ∧
      ∀ e ∈ SW.entries, e.modified = false :=
  ⟨rfl, claim1_roundtrip cfgW SW rfl⟩

/-- Claim C3 (confirmed).  One reconciliation step against the working
list: when the candidate (after text re-derivation) finds a
case-insensitive match `m`, the merged candidate's tags are the set union
of the candidate's and the match's, each of the seven extended-metadata
fields is copied from the match exactly when present on it, and the step
keeps the working list unchanged when `m` equals the merged candidate
structurally, else removes `m` and appends the merged candidate marked
modified; a candidate with no match is appended marked modified. -/
theorem claim3_merge_step (cfg : Config) (W : List Entry) (cand0 : Entry) :
    (∀ m, W.find? (fun e => ciMatch e.uuid (parseTextUpdate cfg cand0).uuid) = some m →
      (∀ t, t ∈ (mergeFromMatch (parseTextUpdate cfg cand0) m).tags ↔
        (t ∈ (parseTextUpdate cfg cand0).tags ∨ t ∈ m.tags)) ∧
      ((mergeFromMatch (parseTextUpdate cfg cand0) m).creator_device_agent =
        if m.creator_device_agent.isSome then m.creator_device_agent
        else (parseTextUpdate cfg cand0).creator_device_agent) ∧
      ((mergeFromMatch (parseTextUpdate cfg cand0) m).creator_generation_date =
        if m.creator_generation_date.isSome then m.creator_generation_date
        else (parseTextUpdate cfg cand0).creator_generation_date) ∧
      ((mergeFromMatch (parseTextUpdate cfg cand0) m).creator_host_name =
        if m.creator_host_name.isSome then m.creator_host_name
        else (parseTextUpdate cfg cand0).creator_host_name) ∧
      ((mergeFromMatch (parseTextUpdate cfg cand0) m).creator_os_agent =
        if m.creator_os_agent.isSome then m.creator_os_agent
        else (parseTextUpdate cfg cand0).creator_os_agent) ∧
      ((mergeFromMatch (parseTextUpdate cfg cand0) m).creator_software_agent =
        if m.creator_software_agent.isSome then m.creator_software_agent
        else (parseTextUpdate cfg cand0).creator_software_agent) ∧
      ((mergeFromMatch (parseTextUpdate cfg cand0) m).location =
        if m.location.isSome then m.location
        else (parseTextUpdate cfg cand0).location) ∧
      ((mergeFromMatch (parseTextUpdate cfg cand0) m).weather =
        if m.weather.isSome then m.weather
        else (parseTextUpdate cfg cand0).weather) ∧
      (entryEqB m (mergeFromMatch (parseTextUpdate cfg cand0) m) = true →
        reconcileStep cfg W cand0 = W) ∧
      (entryEqB m (mergeFromMatch (parseTextUpdate cfg cand0) m) = false →
        ∃ W1 W2, W = W1 ++ m :: W2 ∧
          reconcileStep cfg W cand0 =
            (W1 ++ W2) ++ [{ mergeFromMatch (parseTextUpdate cfg cand0) m with modified := true }])) ∧
    (W.find? (fun e => ciMatch e.uuid (parseTextUpdate cfg cand0).uuid) = none →
      reconcileStep cfg W cand0 = W ++ [{ parseTextUpdate cfg cand0 with modified := true }]) := by
  constructor
  · intro m hfind
    refine ⟨?_, ?_, ?_, ?_, ?_, ?_, ?_, ?_, (reconcileStep_match hfind).1, ?_⟩
    · intro t
      simp [mergeFromMatch, List.mem_dedup]
    · rw [show (mergeFromMatch (parseTextUpdate cfg cand0) m).creator_device_agent =
        (m.creator_device_agent.or (parseTextUpdate cfg cand0).creator_device_agent) from rfl]
      exact or_isSome _ _
    · rw [show (mergeFromMatch (parseTextUpdate cfg cand0) m).creator_generation_date =
        (m.creator_generation_date.or (parseTextUpdate cfg cand0).creator_generation_date) from rfl]
      exact or_isSome _ _
    · rw [show (mergeFromMatch (parseTextUpdate cfg cand0) m).creator_host_name =
        (m.creator_host_name.or (parseTextUpdate cfg cand0).creator_host_name) from rfl]
      exact or_isSome _ _
    · rw [show (mergeFromMatch (parseTextUpdate cfg cand0) m).creator_os_agent =
        (m.creator_os_agent.or (parseTextUpdate cfg cand0).creator_os_agent) from rfl]
      exact or_isSome _ _
    · rw [show (mergeFromMatch (parseTextUpdate cfg cand0) m).creator_software_agent =
        (m.creator_software_agent.or (parseTextUpdate cfg cand0).creator_software_agent) from rfl]
      exact or_isSome _ _
    · rw [show (mergeFromMatch (parseTextUpdate cfg cand0) m).location =
        (m.location.or (parseTextUpdate cfg cand0).location) from rfl]
      exact or_isSome _ _
    · rw [show (mergeFromMatch (parseTextUpdate cfg cand0) m).weather =
        (m.weather.or (parseTextUpdate cfg cand0).weather) from rfl]
      exact or_isSome _ _
    · intro hne
      obtain ⟨W1, W2, hW, -, hstep⟩ := (reconcileStep_match hfind).2 hne
      exact ⟨W1, W2, hW, hstep⟩
  · exact reconcileStep_nomatch

/-- Claim C3 witness: the candidate `candW3` (new title) matches the
stored `mW3`, the merge keeps its tag and device agent, and the step
replaces the match with the merged candidate marked modified; with an
empty working list the candidate is appended marked modified. -/
theorem claim3_merge_step_witness :
    reconcileStep cfgW [mW3] candW3 =
      [{ mergeFromMatch (parseTextUpdate cfgW candW3) mW3 with modified := true }] ∧
    ("@x" ∈ (mergeFromMatch (parseTextUpdate cfgW candW3) mW3).tags ↔
      ("@x" ∈ (parseTextUpdate cfgW candW3).tags ∨ "@x" ∈ mW3.tags)) ∧
    (mergeFromMatch (parseTextUpdate cfgW candW3) mW3).creator_device_agent = some "D" ∧
    reconcileStep cfgW [] candW3 = [{ parseTextUpdate cfgW candW3 with modified := true }] := by
  have h := claim3_merge_step cfgW [mW3] candW3
  have h0 := claim3_merge_step cfgW [] candW3
  refine ⟨rfl, (h.1 mW3 rfl).1 "@x", ?_, by simpa using h0.2 rfl⟩
  simpa using (h.1 mW3 rfl).2.1

/-- Claim C9 (code bug).  A line shaped like a bracketed timestamp before
the first header hits the date-blob branch, which lacks the
`current_entry` guard the body branch has: Python assigns attributes on
`None` and raises `AttributeError`, so parsing fails instead of
discarding the line.  A plain line before the first header is indeed
discarded and the scan completes. -/
theorem claim9_preheader_crash :
    parse_editable_str cfgW ⟨[], []⟩ "[2019] note\n# abc" = none ∧
    (parseCandidates "note\n# abc").isSome = true :=
  ⟨rfl, rfl⟩

/-! ## Lemmas: decoding records -/

/-- With the four required keys present, `decodeRecord` succeeds and its
result is the literal decoded entry. -/
theorem decodeRecord_eq {env : Env} {cfg : Config} {r : PlistRecord} {d : Int}
    {t : String} {s : Bool} {u : String}
    (hd : r.creationDate = some d) (ht : r.entryText = some t)
    (hs : r.starred = some s) (hu : r.uuidKey = some u) :
    decodeRecord env cfg r = Except.ok { freshEntry with
      date := some (if (resolveTZ env r.timeZone).zone ≠ "UTC"
        then d + (resolveTZ env r.timeZone).offset else d)
      title := firstLine t
      body := restLines t
      starred := s
      uuid := some u
      tags := (r.tags.getD []).map
        (fun t => ⟨cfg.tagsymbols.data.headD 'A' :: (lowerS t).data⟩)
      creator_device_agent := r.creator.bind (fun c => c.deviceAgent)
      creator_generation_date := some ((r.creator.bind (fun c => c.generationDate)).getD
        (if (resolveTZ env r.timeZone).zone ≠ "UTC"
          then d + (resolveTZ env r.timeZone).offset else d))
      creator_host_name := r.creator.bind (fun c => c.hostName)
      creator_os_agent := r.creator.bind (fun c => c.osAgent)
      creator_software_agent := r.creator.bind (fun c => c.softwareAgent)
      location := r.location
      weather := r.weather
      modified := false } := by
  unfold decodeRecord
  simp only [hd, ht, hs, hu]
  rfl

/-- A successful decode forces the four required keys to be present. -/
theorem decodeRecord_ok_keys {env : Env} {cfg : Config} {r : PlistRecord} {e : Entry}
    (h : decodeRecord env cfg r = Except.ok e) :
    (∃ d, r.creationDate = some d) ∧ (∃ t, r.entryText = some t) ∧
    (∃ s, r.starred = some s) ∧ (∃ u, r.uuidKey = some u) := by
  unfold decodeRecord at h
  rcases hd : r.creationDate with _ | d <;> simp only [hd] at h
  · exact Except.noConfusion h
  rcases ht : r.entryText with _ | t <;> simp only [ht] at h
  · exact Except.noConfusion h
  rcases hs : r.starred with _ | s <;> simp only [hs] at h
  · exact Except.noConfusion h
  rcases hu : r.uuidKey with _ | u <;> simp only [hu] at h
  · exact Except.noConfusion h
  exact ⟨⟨d, rfl⟩, ⟨t, rfl⟩, ⟨s, rfl⟩, ⟨u, rfl⟩⟩

/-- Claim C5 (confirmed).  Decode resolves the record's named zone through
the database, falling back to the host's local zone when the name is
absent or unrecognized, and the decoded timestamp is the creation instant
shifted by the resolved zone's non-DST offset exactly when the resolved
zone is not `UTC`; a record resolved to `UTC` keeps its instant. -/
theorem claim5_timezone (env : Env) (cfg : Config) (r : PlistRecord) (e : Entry) (d : Int)
    (hd : r.creationDate = some d)
    (he : decodeRecord env cfg r = Except.ok e) :
    e.date = some (if (resolveTZ env r.timeZone).zone ≠ "UTC"
      then d + (resolveTZ env r.timeZone).offset else d) ∧
    (r.timeZone = none → resolveTZ env r.timeZone = env.localZone) ∧
    (∀ n, r.timeZone = some n → env.tzdb.lookup n = none →
      resolveTZ env r.timeZone = env.localZone) ∧
    (∀ n tz, r.timeZone = some n → env.tzdb.lookup n = some tz →
      resolveTZ env r.timeZone = tz) ∧
    ((resolveTZ env r.timeZone).zone = "UTC" → e.date = some d) := by
  obtain ⟨-, ⟨t, ht⟩, ⟨s, hs⟩, ⟨u, hu⟩⟩ := decodeRecord_ok_keys he
  rw [decodeRecord_eq hd ht hs hu] at he
  have hdate : e.date = some (if (resolveTZ env r.timeZone).zone ≠ "UTC"
      then d + (resolveTZ env r.timeZone).offset else d) := by
    rw [← Except.ok.inj he]
  refine ⟨hdate, ?_, ?_, ?_, ?_⟩
  · intro hn; rw [hn]; rfl
  · intro n hn hl
    simp only [hn, resolveTZ, hl]
  · intro n tz hn hl
    simp only [hn, resolveTZ, hl]
  · intro hz
    rw [hdate, if_neg (by simp [hz])]

/-- Claim C5 witness: `recW5` names the unknown zone `Mars/Base`, decode
falls back to the Berlin local zone and shifts the instant by +60; the
`UTC`-zoned `recW6` keeps its instant. -/
theorem claim5_timezone_witness :
    eW5.date = some (if (resolveTZ envW recW5.timeZone).zone ≠ "UTC"
      then 100 + (resolveTZ envW recW5.timeZone).offset else 100) ∧
    resolveTZ envW recW5.timeZone = envW.localZone ∧
    eW5.date = some 160 ∧
    eW6.date = some 7 := by
  have h := claim5_timezone envW cfgW recW5 eW5 100 rfl rfl
  exact ⟨h.1, h.2.2.1 "Mars/Base" rfl rfl, rfl, rfl⟩

/-- Claim C6 (corrected: the generation date is not left absent).  Decode
copies the six other extended fields verbatim — a missing sub-dictionary
or key leaves the Entry field absent and never fails the decode (dropping
all three optional payloads of a decodable record still decodes) — but
the creator generation date is always populated: when the record carries
none it is set to the converted creation instant. -/
theorem claim6_metadata (env : Env) (cfg : Config) (r : PlistRecord) (e : Entry)
    (he : decodeRecord env cfg r = Except.ok e) :
    e.creator_device_agent = r.creator.bind (fun c => c.deviceAgent) ∧
    e.creator_host_name = r.creator.bind (fun c => c.hostName) ∧
    e.creator_os_agent = r.creator.bind (fun c => c.osAgent) ∧
    e.creator_software_agent = r.creator.bind (fun c => c.softwareAgent) ∧
    e.location = r.location ∧
    e.weather = r.weather ∧
    (∀ d, r.creationDate = some d →
      e.creator_generation_date = some ((r.creator.bind (fun c => c.generationDate)).getD
        (if (resolveTZ env r.timeZone).zone ≠ "UTC"
          then d + (resolveTZ env r.timeZone).offset else d))) ∧
    (∃ e', decodeRecord env cfg
      { r with creator := none, location := none, weather := none } = Except.ok e') := by
  obtain ⟨⟨d, hd⟩, ⟨t, ht⟩, ⟨s, hs⟩, ⟨u, hu⟩⟩ := decodeRecord_ok_keys he
  rw [decodeRecord_eq hd ht hs hu] at he
  cases Except.ok.inj he
  refine ⟨rfl, rfl, rfl, rfl, rfl, rfl, ?_, ?_⟩
  · intro d' hd'
    rw [hd'] at hd
    cases Option.some.inj hd
    rfl
  · exact ⟨_, decodeRecord_eq (r := { r with creator := none, location := none, weather := none })
      hd ht hs hu⟩

/-- Claim C6 counterexample: `recW6` has no `Creator` sub-dictionary, yet
the decoded entry's generation date is populated (with the creation
instant) instead of being left absent. -/
theorem claim6_metadata_counterexample :
    decodeRecord envW cfgW recW6 = Except.ok eW6 ∧
    recW6.creator = none ∧
    eW6.creator_generation_date = some 7 :=
  ⟨rfl, rfl, rfl⟩

/-- Claim C6 witness: the metadata of `recW5` (no creator, no location,
no weather) passes through as absent, its generation date is defaulted to
the converted instant, and the stripped record still decodes. -/
theorem claim6_metadata_witness :
    eW5.creator_device_agent = none ∧
    eW5.location = none ∧
    eW5.creator_generation_date = some 160 ∧
    (∃ e', decodeRecord envW cfgW
      { recW5 with creator := none, location := none, weather := none } = Except.ok e') := by
  have h := claim6_metadata envW cfgW recW5 eW5 rfl
  refine ⟨h.1.trans rfl, h.2.2.2.2.1.trans rfl, ?_, h.2.2.2.2.2.2.2⟩
  rw [h.2.2.2.2.2.2.1 100 rfl]
  rfl

/-! ## Lemmas: the record loop of `open` -/

/-- A corrupt file anywhere in the walk is skipped: the fold is the fold
without it. -/
theorem openFold_skip (env : Env) (cfg : Config) (fs1 fs2 : List DFile) (acc : List Entry) :
    (fs1 ++ DFile.corrupt :: fs2).foldlM (openStep env cfg) acc
      = (fs1 ++ fs2).foldlM (openStep env cfg) acc := by
  simp only [List.foldlM_append, List.foldlM_cons, openStep, pure_bind]

/-- When every surviving record decodes, the fold succeeds and yields one
entry per record file. -/
theorem openFold_ok (env : Env) (cfg : Config) :
    ∀ (fs : List DFile) (acc : List Entry),
      (∀ r : PlistRecord, DFile.record r ∈ fs → ∃ e, decodeRecord env cfg r = Except.ok e) →
      ∃ es, fs.foldlM (openStep env cfg) acc = Except.ok es ∧
        es.length = acc.length + (fs.filter DFile.isRecord).length := by
  intro fs
  induction fs with
  | nil => intro acc _; exact ⟨acc, rfl, by simp⟩
  | cons f fs ih =>
    intro acc hok
    cases f with
    | corrupt =>
      obtain ⟨es, hes, hlen⟩ := ih acc (fun r hr => hok r (by simp [hr]))
      refine ⟨es, ?_, ?_⟩
      · rw [List.foldlM_cons]
        show (pure acc >>= fun b => fs.foldlM (openStep env cfg) b) = Except.ok es
        rw [pure_bind]
        exact hes
      · simpa [DFile.isRecord] using hlen
    | record r =>
      obtain ⟨e, he⟩ := hok r (by simp)
      obtain ⟨es, hes, hlen⟩ := ih (acc ++ [e]) (fun r' hr' => hok r' (by simp [hr']))
      refine ⟨es, ?_, ?_⟩
      · rw [List.foldlM_cons]
        show (openStep env cfg acc (DFile.record r) >>= fun b => fs.foldlM (openStep env cfg) b)
          = Except.ok es
        rw [show openStep env cfg acc (DFile.record r) = Except.ok (acc ++ [e]) from by
          show Except.map (fun e => acc ++ [e]) (decodeRecord env cfg r) = Except.ok (acc ++ [e])
          rw [he]
          rfl]
        show fs.foldlM (openStep env cfg) (acc ++ [e]) = Except.ok es
        exact hes
      · rw [hlen]
        simp only [List.filter_cons, DFile.isRecord, if_true, List.length_cons,
          List.length_append, List.length_cons, List.length_nil]
        omega

/-- Claim C4 (corrected: only unparseable files are harmless; a parseable
record missing a required key fails the whole load).  A corrupt record
file anywhere in the directory is silently skipped — the load equals the
load without it — and when every surviving record carries the four
required keys the load succeeds with exactly one entry per record file
(so one corrupt file among nine good ones loads exactly nine entries). -/
theorem claim4_open_resilience (env : Env) (cfg : Config) (fs1 fs2 : List DFile)
    (hok : ∀ r : PlistRecord, DFile.record r ∈ fs1 ++ fs2 →
      ∃ e, decodeRecord env cfg r = Except.ok e) :
    openJournal env cfg (fs1 ++ DFile.corrupt :: fs2) = openJournal env cfg (fs1 ++ fs2) ∧
    ∃ es, openJournal env cfg (fs1 ++ DFile.corrupt :: fs2) = Except.ok es ∧
      es.length = ((fs1 ++ fs2).filter DFile.isRecord).length := by
  have hskip := openFold_skip env cfg fs1 fs2 ([] : List Entry)
  constructor
  · unfold openJournal
    rw [hskip]
  · obtain ⟨es0, hes, hlen⟩ := openFold_ok env cfg (fs1 ++ fs2) [] hok
    refine ⟨sortEntries es0, ?_, ?_⟩
    · unfold openJournal
      rw [hskip, hes]
      rfl
    · unfold sortEntries
      rw [List.length_mergeSort es0]
      simpa using hlen

/-- Claim C4 counterexample: a directory whose second file parses as a
plist but lacks the `Entry Text` key fails the whole load (uncaught
`KeyError`), even though its first record is perfectly decodable. -/
theorem claim4_open_resilience_counterexample :
    openJournal envW cfgW [DFile.record (mkRec 0), DFile.record recBad4] = Except.error () ∧
    (decodeRecord envW cfgW (mkRec 0)).toOption.isSome = true :=
  ⟨rfl, rfl⟩

/-- Claim C4 witness: one corrupt file among nine key-complete records
loads exactly nine entries, the same as without the corrupt file. -/
theorem claim4_open_resilience_witness :
    (openJournal envW cfgW (fs4a ++ DFile.corrupt :: fs4b)
        = openJournal envW cfgW (fs4a ++ fs4b) ∧
      ∃ es, openJournal envW cfgW (fs4a ++ DFile.corrupt :: fs4b) = Except.ok es ∧
        es.length = ((fs4a ++ fs4b).filter DFile.isRecord).length) ∧
    ((fs4a ++ fs4b).filter DFile.isRecord).length = 9 := by
  refine ⟨claim4_open_resilience envW cfgW fs4a fs4b ?_, rfl⟩
  intro r hr
  simp only [fs4a, fs4b, List.mem_append, List.mem_cons, List.not_mem_nil, or_false,
    DFile.record.injEq] at hr
  rcases hr with (rfl | rfl | rfl | rfl) | (rfl | rfl | rfl | rfl | rfl) <;> exact ⟨_, rfl⟩

/-! ## Lemmas: the write and deletion loops -/

/-- Decomposition of a successful `write` into its two loops. -/
theorem write_parts {env : Env} {cfg : Config} {S : DayOneStore}
    {ops : List FileOp} {es : List Entry}
    (hw : write env cfg S = some (ops, es)) :
    ∃ wops dops i, writeLoop env cfg S.entries 0 = some (wops, es, i) ∧
      deleteOps cfg S.deleted = some dops ∧ ops = wops ++ dops := by
  unfold write at hw
  rcases hl : writeLoop env cfg S.entries 0 with _ | ⟨⟨wops, wes, i⟩⟩ <;> rw [hl] at hw
  · exact Option.noConfusion hw
  have hw' : (deleteOps cfg S.deleted).bind (fun dops => some (wops ++ dops, wes))
      = some (ops, es) := hw
  rcases hd : deleteOps cfg S.deleted with _ | dops <;> rw [hd] at hw'
  · exact Option.noConfusion hw'
  have hw'' := Option.some.inj hw'
  simp only [Prod.mk.injEq] at hw''
  obtain ⟨h1, h2⟩ := hw''
  subst h2
  exact ⟨wops, dops, i, rfl, rfl, h1.symm⟩

/-- What the write loop emits: one write operation per modified entry, in
particular each named after the entry's (possibly freshly drawn) identity
upper-cased. -/
theorem writeLoop_spec (env : Env) (cfg : Config) :
    ∀ (l : List Entry) (idx : Nat) (ops : List FileOp) (es : List Entry) (i : Nat),
      writeLoop env cfg l idx = some (ops, es, i) →
      ops.length = (l.filter (fun e => e.modified)).length ∧
      ∀ op ∈ ops, op.isWrite = true ∧ ∃ x ∈ l, x.modified = true ∧ ∃ v,
        op.name = writeName cfg v ∧
        (x.uuid = some v ∨ (x.uuid = none ∧ ∃ j, v = env.freshUuid j)) := by
  intro l
  induction l with
  | nil =>
    intro idx ops es i h
    have h' := Option.some.inj h
    simp only [Prod.mk.injEq] at h'
    obtain ⟨h1, -, -⟩ := h'
    subst h1
    exact ⟨rfl, by simp⟩
  | cons e rest ih =>
    intro idx ops es i h
    unfold writeLoop at h
    by_cases hm : e.modified = true
    · rw [if_pos hm] at h
      rcases hd : e.date with _ | d <;> rw [hd] at h
      · exact Option.noConfusion h
      have h' : (writeLoop env cfg rest (if e.uuid.isSome then idx else idx + 1)).map
          (fun x => (FileOp.writeFile
              (writeName cfg ((fillDefaults env idx (writeUtc env d) e).uuid.getD ""))
              (encodeRecord env cfg (writeUtc env d) (fillDefaults env idx (writeUtc env d) e))
              :: x.1,
            fillDefaults env idx (writeUtc env d) e :: x.2.1, x.2.2)) = some (ops, es, i) := h
      rcases hr : writeLoop env cfg rest (if e.uuid.isSome then idx else idx + 1)
        with _ | ⟨⟨ops', es', i'⟩⟩ <;> rw [hr] at h'
      · exact Option.noConfusion h'
      have h'' := Option.some.inj h'
      simp only [Prod.mk.injEq] at h''
      obtain ⟨h1, -, -⟩ := h''
      subst h1
      obtain ⟨ihlen, ihops⟩ := ih _ ops' es' i' hr
      constructor
      · rw [List.filter_cons_of_pos (by simpa using hm), List.length_cons, ihlen]
        rfl
      · intro op hop
        rcases List.mem_cons.mp hop with hop | hop
        · subst hop
          refine ⟨rfl, e, by simp, hm, e.uuid.getD (env.freshUuid idx), ?_, ?_⟩
          · rfl
          · rcases hu : e.uuid with _ | u
            · exact Or.inr ⟨rfl, idx, rfl⟩
            · exact Or.inl rfl
        · obtain ⟨hw, x, hx, hxm, v, hn, hv⟩ := ihops op hop
          exact ⟨hw, x, List.mem_cons_of_mem e hx, hxm, v, hn, hv⟩
    · rw [if_neg hm] at h
      have h' : (writeLoop env cfg rest idx).map
          (fun x => (x.1, e :: x.2.1, x.2.2)) = some (ops, es, i) := h
      rcases hr : writeLoop env cfg rest idx with _ | ⟨⟨ops', es', i'⟩⟩ <;> rw [hr] at h'
      · exact Option.noConfusion h'
      have h'' := Option.some.inj h'
      simp only [Prod.mk.injEq] at h''
      obtain ⟨h1, -, -⟩ := h''
      subst h1
      obtain ⟨ihlen, ihops⟩ := ih _ ops' es' i' hr
      constructor
      · rw [List.filter_cons_of_neg (by simpa using hm)]
        exact ihlen
      · intro op hop
        obtain ⟨hw, x, hx, hxm, v, hn, hv⟩ := ihops op hop
        exact ⟨hw, x, List.mem_cons_of_mem e hx, hxm, v, hn, hv⟩

/-- What the deletion loop emits: one removal per pending deletion, named
after the identity as stored. -/
theorem deleteOps_spec (cfg : Config) :
    ∀ (dels : List Entry) (ops : List FileOp), deleteOps cfg dels = some ops →
      ∀ op ∈ ops, op.isWrite = false ∧ ∃ x ∈ dels, ∃ u, x.uuid = some u ∧
        op.name = cfg.journal ++ "/entries/" ++ u ++ ".doentry" := by
  intro dels
  induction dels with
  | nil =>
    intro ops h
    have h1 : ([] : List FileOp) = ops := Option.some.inj h
    subst h1
    simp
  | cons e rest ih =>
    intro ops h
    unfold deleteOps at h
    rw [List.mapM_cons] at h
    rcases hu : e.uuid with _ | u <;> rw [hu] at h
    · exact Option.noConfusion h
    have h' : ((rest.mapM fun e => e.uuid.map fun u =>
        FileOp.removeFile (cfg.journal ++ "/entries/" ++ u ++ ".doentry")) >>= fun bs =>
        some (FileOp.removeFile (cfg.journal ++ "/entries/" ++ u ++ ".doentry") :: bs))
        = some ops := h
    rcases hr : (rest.mapM fun e => e.uuid.map fun u =>
        FileOp.removeFile (cfg.journal ++ "/entries/" ++ u ++ ".doentry"))
      with _ | ops' <;> rw [hr] at h'
    · exact Option.noConfusion h'
    have h1 := Option.some.inj h'
    subst h1
    intro op hop
    rcases List.mem_cons.mp hop with hop | hop
    · subst hop
      exact ⟨rfl, e, by simp, u, hu, rfl⟩
    · obtain ⟨hw, x, hx, v, hv, hn⟩ := ih ops' hr op hop
      exact ⟨hw, x, List.mem_cons_of_mem e hx, v, hv, hn⟩

/-- The write-file name determines the upper-cased identity. -/
theorem writeName_inj {cfg : Config} {u v : String} (h : writeName cfg v = writeName cfg u) :
    upperS v = upperS u := by
  unfold writeName at h
  have h2 := congrArg String.data h
  simp only [data_append] at h2
  exact str_ext (List.append_cancel_left (List.append_cancel_right h2))

/-- Claim C7 (corrected: deletions do not upper-case the identity).
Every file `write` creates is `<journal>/entries/<IDENTITY upper-cased>.doentry`
for a modified entry's (possibly freshly drawn) identity, but every file
it removes is named with the pending deletion's identity exactly as
stored, not upper-cased. -/
theorem claim7_filenames (env : Env) (cfg : Config) (S : DayOneStore)
    (ops : List FileOp) (es : List Entry)
    (hw : write env cfg S = some (ops, es)) :
    (∀ op ∈ ops, op.isWrite = true →
      ∃ x ∈ S.entries, x.modified = true ∧ ∃ v,
        op.name = cfg.journal ++ "/entries/" ++ upperS v ++ ".doentry" ∧
        (x.uuid = some v ∨ (x.uuid = none ∧ ∃ j, v = env.freshUuid j))) ∧
    (∀ op ∈ ops, op.isWrite = false →
      ∃ x ∈ S.deleted, ∃ u, x.uuid = some u ∧
        op.name = cfg.journal ++ "/entries/" ++ u ++ ".doentry") := by
  obtain ⟨wops, dops, i, hl, hd, hops⟩ := write_parts hw
  subst hops
  obtain ⟨-, hwspec⟩ := writeLoop_spec env cfg S.entries 0 wops es i hl
  have hdspec := deleteOps_spec cfg S.deleted dops hd
  constructor
  · intro op hop hwrite
    rcases List.mem_append.mp hop with hop | hop
    · obtain ⟨-, x, hx, hxm, v, hn, hv⟩ := hwspec op hop
      exact ⟨x, hx, hxm, v, by rw [hn]; rfl, hv⟩
    · obtain ⟨hfalse, -⟩ := hdspec op hop
      rw [hwrite] at hfalse
      exact absurd hfalse (by simp)
  · intro op hop hremove
    rcases List.mem_append.mp hop with hop | hop
    · obtain ⟨htrue, -⟩ := hwspec op hop
      rw [hremove] at htrue
      exact absurd htrue (by simp)
    · exact hdspec op hop |>.2

/-- Claim C7 counterexample: the pending deletion `e7d` stores identity
`cd`; `write` removes `j/entries/cd.doentry`, not the upper-cased
`j/entries/CD.doentry` the claim's layout would require. -/
theorem claim7_filenames_counterexample :
    res7.1.map FileOp.name = ["j/entries/AB.doentry", "j/entries/cd.doentry"] ∧
    "j/entries/cd.doentry" ≠ cfgW.journal ++ "/entries/" ++ upperS "cd" ++ ".doentry" :=
  ⟨rfl, by decide⟩

/-- Claim C7 witness: saving `S7` writes the modified entry under its
upper-cased identity and removes the pending deletion under its stored
identity. -/
theorem claim7_filenames_witness :
    write envW cfgW S7 = some res7 ∧
    (∀ op ∈ res7.1, op.isWrite = true →
      ∃ x ∈ S7.entries, x.modified = true ∧ ∃ v,
        op.name = cfgW.journal ++ "/entries/" ++ upperS v ++ ".doentry" ∧
        (x.uuid = some v ∨ (x.uuid = none ∧ ∃ j, v = envW.freshUuid j))) ∧
    (∀ op ∈ res7.1, op.isWrite = false →
      ∃ x ∈ S7.deleted, ∃ u, x.uuid = some u ∧
        op.name = cfgW.journal ++ "/entries/" ++ u ++ ".doentry") := by
  have h := claim7_filenames envW cfgW S7 res7.1 res7.2 rfl
  exact ⟨rfl, h.1, h.2⟩

/-- Claim C8 (corrected: the frame property needs the upper-cased
identities of modified and unmodified entries to be distinct).  `write`
emits exactly one file-creating operation per modified entry; and an
unmodified entry's file is untouched by the write loop provided every
modified entry carries an identity whose upper-casing differs — without
that proviso a modified entry may overwrite an unmodified entry's file,
as the counterexample shows. -/
theorem claim8_write_frame (env : Env) (cfg : Config) (S : DayOneStore)
    (ops : List FileOp) (es : List Entry)
    (hw : write env cfg S = some (ops, es)) :
    (ops.filter (fun op => op.isWrite)).length
      = (S.entries.filter (fun e => e.modified)).length ∧
    (∀ e ∈ S.entries, e.modified = false → ∀ u, e.uuid = some u →
      (∀ x ∈ S.entries, x.modified = true → ∃ v, x.uuid = some v ∧ upperS v ≠ upperS u) →
      ∀ op ∈ ops, op.isWrite = true → op.name ≠ writeName cfg u) := by
  obtain ⟨wops, dops, i, hl, hd, hops⟩ := write_parts hw
  subst hops
  obtain ⟨hlen, hwspec⟩ := writeLoop_spec env cfg S.entries 0 wops es i hl
  have hdspec := deleteOps_spec cfg S.deleted dops hd
  constructor
  · rw [List.filter_append]
    rw [List.filter_eq_self.mpr (fun op hop => (hwspec op hop).1)]
    rw [List.filter_eq_nil_iff.mpr (fun op hop => by simp [(hdspec op hop).1])]
    rw [List.append_nil]
    exact hlen
  · intro e he hemod u hu hdist op hop hwrite hname
    rcases List.mem_append.mp hop with hop | hop
    · obtain ⟨-, x, hx, hxm, v, hn, hv⟩ := hwspec op hop
      obtain ⟨v', hv', hne⟩ := hdist x hx hxm
      rcases hv with hv | ⟨hnone, -⟩
      · rw [hv'] at hv
        cases Option.some.inj hv
        rw [hn] at hname
        exact hne (writeName_inj hname)
      · rw [hnone] at hv'
        exact Option.noConfusion hv'
    · obtain ⟨hfalse, -⟩ := hdspec op hop
      rw [hwrite] at hfalse
      exact absurd hfalse (by simp)

/-- Claim C8 counterexample: in `S8` the unmodified entry `aa` and the
modified entry `AA` upper-case to the same identity; the single write
operation (for `AA`) targets `writeName cfgW "aa"`, the unmodified
entry's own file, so that file is rewritten by save. -/
theorem claim8_write_frame_counterexample :
    e8a.modified = false ∧ e8b.modified = true ∧
    ops8.map FileOp.name = [writeName cfgW "aa"] :=
  ⟨rfl, rfl, rfl⟩

/-- Claim C8 witness: saving `S8w` (identities `aa` unmodified, `bb`
modified) performs exactly one write, and it does not touch the
unmodified entry's file. -/
theorem claim8_write_frame_witness :
    (ops8w.filter (fun op => op.isWrite)).length
      = (S8w.entries.filter (fun e => e.modified)).length ∧
    op8w ∈ ops8w ∧ op8w.isWrite = true ∧ op8w.name ≠ writeName cfgW "aa" := by
  have h := claim8_write_frame envW cfgW S8w ops8w ((write envW cfgW S8w).getD ([], [])).2 rfl
  refine ⟨h.1, by decide, rfl, ?_⟩
  refine h.2 e8a (by simp [S8w]) rfl "aa" rfl ?_ op8w (by decide) rfl
  intro x hx hxm
  rcases List.mem_cons.mp hx with hx | hx
  · subst hx
    exact absurd hxm (by decide)
  · rcases List.mem_cons.mp hx with hx | hx
    · subst hx
      exact ⟨"bb", rfl, by decide⟩
    · exact absurd hx (List.not_mem_nil x)

/-! ## Lemmas: lower-cased candidate identities -/

theorem lowerChar_not_upper (c : Char) :
    ¬(65 ≤ (lowerChar c).toNat ∧ (lowerChar c).toNat ≤ 90) := by
  unfold lowerChar
  by_cases h : (65 ≤ c.toNat && c.toNat ≤ 90) = true
  · rw [if_pos h]
    simp only [Bool.and_eq_true, decide_eq_true_eq] at h
    have hv : (c.toNat + 32).isValidChar := Or.inl (by omega)
    rw [toNat_ofNat_valid hv]
    omega
  · rw [if_neg h]
    simp only [Bool.and_eq_true, decide_eq_true_eq, not_and] at h
    intro hc
    exact absurd hc.2 (h hc.1)

theorem lowerS_no_upper (s : String) :
    ∀ ch ∈ (lowerS s).data, ¬(65 ≤ ch.toNat ∧ ch.toNat ≤ 90) := by
  intro ch hch
  simp only [lowerS, List.mem_map] at hch
  obtain ⟨c, -, rfl⟩ := hch
  exact lowerChar_not_upper c

/-- The three shapes of a successful scan step: a header line opens a
fresh candidate whose identity is a lower-cased capture; a title or body
line keeps the accumulator and the current candidate's identity; any
other line without a current candidate changes nothing. -/
theorem stepLine_cases {st : PState} {raw : String} {st' : PState}
    (h : stepLine st raw = some st') :
    (∃ hex, headerMatch (rstripS raw) = some hex ∧
      st' = ⟨st.acc ++ st.cur.toList,
        some { freshEntry with modified := false, uuid := some (lowerS hex) }⟩) ∨
    (∃ c c', st.cur = some c ∧ st'.acc = st.acc ∧ st'.cur = some c' ∧ c'.uuid = c.uuid) ∨
    (st.cur = none ∧ st' = st) := by
  unfold stepLine at h
  rcases hm : headerMatch (rstripS raw) with _ | hex
  · rcases hb : dateBlobMatch (rstripS raw) with _ | blob
    · rcases hc : st.cur with _ | c
      · simp only [hm, hb, hc] at h
        exact Or.inr (Or.inr ⟨rfl, (Option.some.inj h).symm⟩)
      · simp only [hm, hb, hc] at h
        have hx := Option.some.inj h
        subst hx
        exact Or.inr (Or.inl ⟨c, _, rfl, rfl, rfl, rfl⟩)
    · rcases hc : st.cur with _ | c
      · simp only [hm, hb, hc] at h
        exact Option.noConfusion h
      · simp only [hm, hb, hc] at h
        have hx := Option.some.inj h
        subst hx
        exact Or.inr (Or.inl ⟨c, _, rfl, rfl, rfl, rfl⟩)
  · simp only [hm] at h
    have hx := Option.some.inj h
    subst hx
    exact Or.inl ⟨hex, rfl, rfl⟩

/-- The scan preserves the invariant that no tracked candidate's identity
contains an upper-case ASCII letter. -/
theorem scanFold_lower :
    ∀ (lines : List String) (st st' : PState),
      lines.foldlM stepLine st = some st' →
      (∀ c ∈ st.acc ++ st.cur.toList, ∀ u, c.uuid = some u →
        ∀ ch ∈ u.data, ¬(65 ≤ ch.toNat ∧ ch.toNat ≤ 90)) →
      ∀ c ∈ st'.acc ++ st'.cur.toList, ∀ u, c.uuid = some u →
        ∀ ch ∈ u.data, ¬(65 ≤ ch.toNat ∧ ch.toNat ≤ 90) := by
  intro lines
  induction lines with
  | nil =>
    intro st st' h hinv
    have hx := Option.some.inj h
    subst hx
    exact hinv
  | cons l ls ih =>
    intro st st' h hinv
    rw [List.foldlM_cons] at h
    rcases hs : stepLine st l with _ | st1 <;> rw [hs] at h
    · exact Option.noConfusion h
    have h' : ls.foldlM stepLine st1 = some st' := h
    refine ih st1 st' h' ?_
    rcases stepLine_cases hs with ⟨hex, -, rfl⟩ | ⟨c, c', hc, hacc, hcur, huuid⟩ | ⟨-, rfl⟩
    · intro x hx u hu ch hch
      rcases List.mem_append.mp hx with hx | hx
      · exact hinv x (by simpa using hx) u hu ch hch
      · simp only [Option.toList_some, List.mem_singleton] at hx
        subst hx
        have h2 : lowerS hex = u := Option.some.inj hu
        subst h2
        exact lowerS_no_upper hex ch hch
    · intro x hx u hu ch hch
      rcases List.mem_append.mp hx with hx | hx
      · rw [hacc] at hx
        exact hinv x (List.mem_append.mpr (Or.inl hx)) u hu ch hch
      · rw [hcur] at hx
        simp only [Option.toList_some, List.mem_singleton] at hx
        subst hx
        rw [huuid] at hu
        refine hinv c ?_ u hu ch hch
        rw [hc]
        simp
    · exact hinv

/-- Every candidate `parseCandidates` returns has an identity free of
upper-case ASCII letters. -/
theorem parseCandidates_lower {doc : String} {cands : List Entry}
    (hp : parseCandidates doc = some cands) :
    ∀ c ∈ cands, ∀ u, c.uuid = some u →
      ∀ ch ∈ u.data, ¬(65 ≤ ch.toNat ∧ ch.toNat ≤ 90) := by
  unfold parseCandidates at hp
  rcases hf : (splitlines doc).foldlM stepLine ⟨[], none⟩ with _ | st <;> rw [hf] at hp
  · exact Option.noConfusion hp
  have hcands : st.acc ++ st.cur.toList = cands := Option.some.inj hp
  intro c hc
  rw [← hcands] at hc
  exact scanFold_lower (splitlines doc) ⟨[], none⟩ st hf (by simp) c hc

/-- Claim C10 (confirmed).  Every candidate the parser creates carries an
identity with no upper-case ASCII letter (the capture is lower-cased), and
because the final deletion filter compares identities by case-sensitive
membership, any entry of the final working list whose stored identity
contains an upper-case letter lands in the deletion set and not in
`entries` — even when the document's headers match it
case-insensitively. -/
theorem claim10_case_sensitivity (cfg : Config) (S : DayOneStore) (doc : String)
    (cands : List Entry) (S' : DayOneStore)
    (hp : parseCandidates doc = some cands)
    (hres : parse_editable_str cfg S doc = some S') :
    (∀ c ∈ cands, ∀ u, c.uuid = some u →
      ∀ ch ∈ u.data, ¬(65 ≤ ch.toNat ∧ ch.toNat ≤ 90)) ∧
    (∀ e ∈ S'.entries, ∀ u, e.uuid = some u →
      ∀ ch ∈ u.data, ¬(65 ≤ ch.toNat ∧ ch.toNat ≤ 90)) ∧
    (∀ e ∈ cands.foldl (reconcileStep cfg) S.entries,
      ∀ u, e.uuid = some u → (∃ ch ∈ u.data, 65 ≤ ch.toNat ∧ ch.toNat ≤ 90) →
      e ∈ S'.deleted ∧ e ∉ S'.entries) := by
  have hlow := parseCandidates_lower hp
  have hS : S' = reconcile cfg S cands := by
    unfold parse_editable_str at hres
    rw [hp] at hres
    exact (Option.some.inj hres).symm
  subst hS
  refine ⟨hlow, ?_, ?_⟩
  · intro e he u hu ch hch
    have he' : e ∈ (cands.foldl (reconcileStep cfg) S.entries).filter
        (fun e => decide (e.uuid ∈ cands.map (fun x => x.uuid))) := he
    obtain ⟨-, hmem⟩ := List.mem_filter.mp he'
    simp only [decide_eq_true_eq, List.mem_map] at hmem
    obtain ⟨c, hc, hcu⟩ := hmem
    exact hlow c hc u (by rw [hcu, hu]) ch hch
  · rintro e he u hu ⟨ch, hch, hup⟩
    have hnot : e.uuid ∉ cands.map (fun x => x.uuid) := by
      intro hmem
      simp only [List.mem_map] at hmem
      obtain ⟨c, hc, hcu⟩ := hmem
      exact hlow c hc u (by rw [hcu, hu]) ch hch hup
    constructor
    · show e ∈ (cands.foldl (reconcileStep cfg) S.entries).filter
        (fun e => decide (e.uuid ∉ cands.map (fun x => x.uuid)))
      exact List.mem_filter.mpr ⟨he, by simpa using hnot⟩
    · intro hin
      have hin' : e ∈ (cands.foldl (reconcileStep cfg) S.entries).filter
          (fun e => decide (e.uuid ∈ cands.map (fun x => x.uuid))) := hin
      obtain ⟨-, hmem⟩ := List.mem_filter.mp hin'
      simp only [decide_eq_true_eq] at hmem
      exact hnot hmem

/-- Claim C10 witness: in `S10` the header `# ab` keeps the lower-case
entry `e10a` untouched (it matches first), so the upper-case `e10b`
survives to the final filter with identity `AB`, is not among the
candidates' exact identities, and is deleted. -/
theorem claim10_case_sensitivity_witness :
    e10b ∈ S10res.deleted ∧ e10b ∉ S10res.entries ∧ e10b.uuid = some "AB" ∧
    S10res.entries = [e10a] := by
  have h := claim10_case_sensitivity cfgW S10 doc10 cands10 S10res rfl rfl
  have hm := h.2.2 e10b (by decide) "AB" rfl ⟨'A', by decide, by decide⟩
  exact ⟨hm.1, hm.2, rfl, rfl⟩

/-! ## Lemmas: reconciliation of a three-entry store -/

theorem perm_swap_ends {α : Type} (x b y : α) : List.Perm [x, b, y] [y, b, x] := by
  have h1 : List.Perm [x, b, y] [b, x, y] := List.Perm.swap ..
  have h2 : List.Perm [x, y] [y, x] := List.Perm.swap ..
  have h3 : List.Perm [b, x, y] [b, y, x] := h2.cons b
  have h4 : List.Perm [b, y, x] [y, b, x] := List.Perm.swap ..
  exact (h1.trans h3).trans h4

/-- One reconciliation step on a working list holding (up to permutation)
a unique case-insensitive match `x` for the candidate, a bystander `b`
and a bystander `y`: the step retains both bystanders and leaves in place
of `x` an entry whose identity is exactly the candidate's. -/
theorem c2_step (cfg : Config) {W : List Entry} {x b y cand0 : Entry} {u : String}
    (hperm : List.Perm W [x, b, y])
    (hu : cand0.uuid = some u) (hlu : lowerS u = u)
    (hxu : ∀ v, x.uuid = some v → lowerS v = u) (hxs : x.uuid.isSome = true)
    (hb : ∀ v, b.uuid = some v → lowerS v ≠ u)
    (hy : ∀ v, y.uuid = some v → lowerS v ≠ u) :
    ∃ x', List.Perm (reconcileStep cfg W cand0) [x', b, y] ∧ x'.uuid = some u := by
  have hcu : (parseTextUpdate cfg cand0).uuid = some u := by
    rw [parseTextUpdate_uuid, hu]
  obtain ⟨v, hxv⟩ := Option.isSome_iff_exists.mp hxs
  have hpx : ciMatch x.uuid (parseTextUpdate cfg cand0).uuid = true := by
    rw [hcu, hxv]
    unfold ciMatch
    simp [hxu v hxv, hlu]
  have hgen : ∀ w : Entry, (∀ v, w.uuid = some v → lowerS v ≠ u) →
      ciMatch w.uuid (parseTextUpdate cfg cand0).uuid = false := by
    intro w hw
    rw [hcu]
    unfold ciMatch
    rcases hwv : w.uuid with _ | v'
    · rfl
    · simp only [Option.map_some', beq_eq_false_iff_ne, ne_eq, Option.some.injEq, hlu]
      exact hw v' hwv
  have hpz : ∀ z ∈ W, z ≠ x → ciMatch z.uuid (parseTextUpdate cfg cand0).uuid = false := by
    intro z hz hne
    have hz3 : z = x ∨ z = b ∨ z = y := by simpa using hperm.mem_iff.mp hz
    rcases hz3 with rfl | rfl | rfl
    · exact absurd rfl hne
    · exact hgen _ hb
    · exact hgen _ hy
  have hfind : W.find? (fun e => ciMatch e.uuid (parseTextUpdate cfg cand0).uuid) = some x :=
    find?_unique (hperm.mem_iff.mpr (by simp)) hpx hpz
  by_cases heq : entryEqB x (mergeFromMatch (parseTextUpdate cfg cand0) x) = true
  · refine ⟨x, ?_, ?_⟩
    · rw [(reconcileStep_match hfind).1 heq]
      exact hperm
    · rw [entryEqB_uuid heq]
      exact hcu
  · obtain ⟨W1, W2, hW, -, hstep⟩ := (reconcileStep_match hfind).2 (by simpa using heq)
    refine ⟨{ mergeFromMatch (parseTextUpdate cfg cand0) x with modified := true }, ?_, hcu⟩
    rw [hstep]
    have h1 : List.Perm (W1 ++ W2) [b, y] := by
      have h2 : List.Perm (x :: (W1 ++ W2)) (x :: [b, y]) := by
        refine List.Perm.trans ?_ hperm
        rw [hW]
        exact List.perm_middle.symm
      exact h2.cons_inv
    exact List.Perm.trans (List.perm_append_singleton _ _) (h1.cons _)

/-- Folding the candidates of an `{A, C}`-only document over a working
list holding the three entries keeps the `B`-entry untouched, keeps one
slot per surviving identity, and pins each surviving slot's identity to
the candidates' exact (lower-cased) identity once a candidate for it has
been processed. -/
theorem c2_fold (cfg : Config) (eb : Entry) (lA lB lC : String)
    (hAB : lA ≠ lB) (hAC : lA ≠ lC) (hBC : lB ≠ lC)
    (hlA : lowerS lA = lA) (hlC : lowerS lC = lC)
    (hebu : ∀ v, eb.uuid = some v → lowerS v = lB) :
    ∀ (cands W : List Entry) (x y : Entry),
      (∀ c ∈ cands, c.uuid = some lA ∨ c.uuid = some lC) →
      List.Perm W [x, eb, y] →
      (∀ v, x.uuid = some v → lowerS v = lA) → x.uuid.isSome = true →
      (∀ v, y.uuid = some v → lowerS v = lC) → y.uuid.isSome = true →
      ∃ x' y', List.Perm (cands.foldl (reconcileStep cfg) W) [x', eb, y'] ∧
        (x'.uuid = some lA ∨ (x' = x ∧ ∀ c ∈ cands, c.uuid ≠ some lA)) ∧
        (y'.uuid = some lC ∨ (y' = y ∧ ∀ c ∈ cands, c.uuid ≠ some lC)) := by
  intro cands
  induction cands with
  | nil =>
    intro W x y _ hperm hxu hxs hyu hys
    exact ⟨x, y, hperm, Or.inr ⟨rfl, by simp⟩, Or.inr ⟨rfl, by simp⟩⟩
  | cons c cs ih =>
    intro W x y hcu hperm hxu hxs hyu hys
    rw [List.foldl_cons]
    rcases hcu c (by simp) with hcA | hcC
    · obtain ⟨x1, hperm1, hx1u⟩ := c2_step cfg hperm hcA hlA hxu hxs
        (fun v hv => by rw [hebu v hv]; exact Ne.symm hAB)
        (fun v hv => by rw [hyu v hv]; exact Ne.symm hAC)
      obtain ⟨x', y', hperm', hxd, hyd⟩ := ih (reconcileStep cfg W c) x1 y
        (fun c' hc' => hcu c' (by simp [hc'])) hperm1
        (fun v hv => by rw [hx1u] at hv; cases Option.some.inj hv; exact hlA)
        (by rw [hx1u]; rfl) hyu hys
      refine ⟨x', y', hperm', ?_, ?_⟩
      · rcases hxd with hxd | ⟨rfl, -⟩
        · exact Or.inl hxd
        · exact Or.inl hx1u
      · rcases hyd with hyd | ⟨rfl, hnone⟩
        · exact Or.inl hyd
        · refine Or.inr ⟨rfl, ?_⟩
          intro c' hc'
          rcases List.mem_cons.mp hc' with rfl | hc'
          · rw [hcA]
            intro hcon
            exact hAC (Option.some.inj hcon)
          · exact hnone c' hc'
    · obtain ⟨y1, hperm1, hy1u⟩ := c2_step cfg (hperm.trans (perm_swap_ends x eb y)) hcC hlC
        hyu hys
        (fun v hv => by rw [hebu v hv]; exact hBC)
        (fun v hv => by rw [hxu v hv]; exact hAC)
      obtain ⟨x', y', hperm', hxd, hyd⟩ := ih (reconcileStep cfg W c) x y1
        (fun c' hc' => hcu c' (by simp [hc']))
        (hperm1.trans (perm_swap_ends y1 eb x))
        hxu hxs
        (fun v hv => by rw [hy1u] at hv; cases Option.some.inj hv; exact hlC)
        (by rw [hy1u]; rfl)
      refine ⟨x', y', hperm', ?_, ?_⟩
      · rcases hxd with hxd | ⟨rfl, hnone⟩
        · exact Or.inl hxd
        · refine Or.inr ⟨rfl, ?_⟩
          intro c' hc'
          rcases List.mem_cons.mp hc' with rfl | hc'
          · rw [hcC]
            intro hcon
            exact hAC (Option.some.inj hcon).symm
          · exact hnone c' hc'
      · rcases hyd with hyd | ⟨rfl, -⟩
        · exact Or.inl hyd
        · exact Or.inl hy1u

/-- Claim C2 (confirmed).  For a store holding entries with pairwise
case-insensitively distinct identities `A`, `B`, `C`, and an edited
document whose candidates carry headers for exactly `{A, C}` (each
candidate's identity is the parser's lower-casing of `A` or of `C`, and
both occur), reconciliation moves exactly the `B`-entry into the pending
deletion set, and the surviving entries' identities are exactly the
(lower-cased) `A` and `C`. -/
theorem claim2_deletion_detection (cfg : Config) (dels : List Entry)
    (ea eb ec : Entry) (A B C : String) (doc : String)
    (cands : List Entry) (S' : DayOneStore)
    (hA : ea.uuid = some A) (hB : eb.uuid = some B) (hC : ec.uuid = some C)
    (hAB : lowerS A ≠ lowerS B) (hAC : lowerS A ≠ lowerS C) (hBC : lowerS B ≠ lowerS C)
    (hp : parseCandidates doc = some cands)
    (hcu : ∀ c ∈ cands, c.uuid = some (lowerS A) ∨ c.uuid = some (lowerS C))
    (hcA : ∃ c ∈ cands, c.uuid = some (lowerS A))
    (hcC : ∃ c ∈ cands, c.uuid = some (lowerS C))
    (hres : parse_editable_str cfg ⟨[ea, eb, ec], dels⟩ doc = some S') :
    S'.deleted = [eb] ∧
    List.Perm (S'.entries.map (fun e => e.uuid)) [some (lowerS A), some (lowerS C)] := by
  have hS : S' = reconcile cfg ⟨[ea, eb, ec], dels⟩ cands := by
    unfold parse_editable_str at hres
    rw [hp] at hres
    exact (Option.some.inj hres).symm
  subst hS
  obtain ⟨x', y', hperm, hxd, hyd⟩ :=
    c2_fold cfg eb (lowerS A) (lowerS B) (lowerS C) hAB hAC hBC
      (lowerS_idem A) (lowerS_idem C)
      (fun v hv => by rw [hB] at hv; cases Option.some.inj hv; rfl)
      cands [ea, eb, ec] ea ec hcu (List.Perm.refl _)
      (fun v hv => by rw [hA] at hv; cases Option.some.inj hv; rfl)
      (by rw [hA]; rfl)
      (fun v hv => by rw [hC] at hv; cases Option.some.inj hv; rfl)
      (by rw [hC]; rfl)
  obtain ⟨cA, hcAm, hcAu⟩ := hcA
  obtain ⟨cC, hcCm, hcCu⟩ := hcC
  have hx : x'.uuid = some (lowerS A) := by
    rcases hxd with hxd | ⟨-, hnone⟩
    · exact hxd
    · exact absurd hcAu (hnone cA hcAm)
  have hy : y'.uuid = some (lowerS C) := by
    rcases hyd with hyd | ⟨-, hnone⟩
    · exact hyd
    · exact absurd hcCu (hnone cC hcCm)
  have hmemA : some (lowerS A) ∈ cands.map (fun e => e.uuid) := by
    rw [← hcAu]
    exact List.mem_map_of_mem _ hcAm
  have hmemC : some (lowerS C) ∈ cands.map (fun e => e.uuid) := by
    rw [← hcCu]
    exact List.mem_map_of_mem _ hcCm
  have hmemB : some B ∉ cands.map (fun e => e.uuid) := by
    intro hmem
    simp only [List.mem_map] at hmem
    obtain ⟨c0, hc0, hc0u⟩ := hmem
    rcases hcu c0 hc0 with h0 | h0 <;> rw [h0] at hc0u
    · have hBA : B = lowerS A := (Option.some.inj hc0u).symm
      refine hAB ?_
      rw [hBA, lowerS_idem]
    · have hBC' : B = lowerS C := (Option.some.inj hc0u).symm
      refine absurd ?_ hBC
      rw [hBC', lowerS_idem]
  have hqx : (decide (x'.uuid ∈ cands.map (fun e => e.uuid))) = true := by
    simp only [hx, decide_eq_true_eq]
    exact hmemA
  have hqy : (decide (y'.uuid ∈ cands.map (fun e => e.uuid))) = true := by
    simp only [hy, decide_eq_true_eq]
    exact hmemC
  have hqb : (decide (eb.uuid ∈ cands.map (fun e => e.uuid))) = false := by
    simp only [hB, decide_eq_false_iff_not]
    exact hmemB
  constructor
  · show List.filter (fun e => decide (e.uuid ∉ cands.map (fun e => e.uuid)))
      (cands.foldl (reconcileStep cfg) [ea, eb, ec]) = [eb]
    refine List.perm_singleton.mp ?_
    refine List.Perm.trans (hperm.filter _) ?_
    rw [List.filter_cons_of_neg (by simp only [decide_not, hqx, Bool.not_true]; simp),
      List.filter_cons_of_pos (by simp only [decide_not, hqb, Bool.not_false]),
      List.filter_cons_of_neg (by simp only [decide_not, hqy, Bool.not_true]; simp),
      List.filter_nil]
  · show List.Perm ((List.filter (fun e => decide (e.uuid ∈ cands.map (fun e => e.uuid)))
      (cands.foldl (reconcileStep cfg) [ea, eb, ec])).map (fun e => e.uuid))
      [some (lowerS A), some (lowerS C)]
    refine List.Perm.trans ((hperm.filter _).map _) ?_
    rw [List.filter_cons_of_pos (by exact hqx),
      List.filter_cons_of_neg (by rw [hqb]; simp),
      List.filter_cons_of_pos (by exact hqy),
      List.filter_nil]
    rw [List.map_cons, List.map_cons, List.map_nil, hx, hy]

/-- Claim C2 witness: reconciling `docAC` (headers for `aa` and `cc`
only) against the `{aa, bb, cc}` store deletes exactly `eB` and leaves
entries with identities `aa` and `cc`. -/
theorem claim2_deletion_detection_witness :
    S2res.deleted = [eB] ∧
    List.Perm (S2res.entries.map (fun e => e.uuid))
      [some (lowerS "aa"), some (lowerS "cc")] := by
  refine claim2_deletion_detection cfgW [] eA eB eC "aa" "bb" "cc" docAC cands2 S2res
    rfl rfl rfl (by decide) (by decide) (by decide) rfl ?_ ?_ ?_ rfl
  · intro c hc
    rcases List.mem_cons.mp hc with rfl | hc
    · exact Or.inl rfl
    · rcases List.mem_cons.mp hc with rfl | hc
      · exact Or.inr rfl
      · exact absurd hc (List.not_mem_nil c)
  · exact ⟨cands2.headD freshEntry, by decide, rfl⟩
  · exact ⟨(cands2.drop 1).headD freshEntry, by decide, rfl⟩

end DayOne
